import Mathlib

/-!
Verification development for the neural-break-unity migration scripts
(`remove_instance_props.py`, `fix_instances.py`, `update_debug_logs.py`).

The scripts are pure line/character transformations; we embed them as
computable functions over `List Char` (file content) and
`List (List Char)` (the line sequence produced by `readlines`).
Python regular expressions used by the scripts are embedded as
deterministic scanners; all the character classes involved
(`\s`, `\w`, literals) are pairwise disjoint at every junction of the
concrete patterns, so greedy maximal-munch scanning coincides with the
backtracking semantics of `re`.  `\s` and `\w` are modelled over their
ASCII ranges, which covers every literal the scripts and the spec use.
-/

/-- Model of the Python regex class `\s` (ASCII range). -/
def pyIsSpace (c : Char) : Bool :=
  c = ' ' || c = '\t' || c = '\n' || c = '\r' || c = '\x0b' || c = '\x0c'

/-- Model of the Python regex class `\w` (ASCII range). -/
def pyIsWord (c : Char) : Bool :=
  ('a' ≤ c && c ≤ 'z') || ('A' ≤ c && c ≤ 'Z') || ('0' ≤ c && c ≤ '9') || c = '_'

/-- Shorthand turning a string literal into the character list we compute on. -/
def cs (s : String) : List Char := s.toList

/-- Boolean test: `begins pat s` holds when `pat` is a prefix of `s`. -/
def begins : List Char → List Char → Bool
  | [], _ => true
  | _ :: _, [] => false
  | a :: as, b :: bs => a = b && begins as bs

/-- Boolean test: `hasSub pat s` holds when `pat` occurs as a contiguous
substring of `s` (Python's `pat in s`). -/
def hasSub (pat : List Char) : List Char → Bool
  | [] => begins pat []
  | b :: r => begins pat (b :: r) || hasSub pat r

/-- Boolean test: character membership (Python's `c in s` for a 1-char `c`). -/
def hasChar (c : Char) : List Char → Bool
  | [] => false
  | a :: r => a = c || hasChar c r

/-- Parser primitive: consume the exact literal `pat`, returning the rest. -/
def lit : List Char → List Char → Option (List Char)
  | [], s => some s
  | _ :: _, [] => none
  | a :: as, b :: bs => if a = b then lit as bs else none

/-- Parser primitive for `\s*`: consume a maximal (possibly empty) whitespace run. -/
def ws0 (s : List Char) : Option (List Char) :=
  some (List.dropWhile pyIsSpace s)

/-- Parser primitive for `\s+`: consume a maximal nonempty whitespace run. -/
def ws1 : List Char → Option (List Char)
  | [] => none
  | c :: r => if pyIsSpace c then some (List.dropWhile pyIsSpace r) else none

/-- Parser primitive for `\w+`: consume a maximal nonempty word-character run. -/
def word1 : List Char → Option (List Char)
  | [] => none
  | c :: r => if pyIsWord c then some (List.dropWhile pyIsWord r) else none

/-- Existential position scan: `searchAny f s` holds when `f` accepts some
suffix of `s`, i.e. the pattern recognised by `f` matches at some start
position (the semantics of `re.search`). -/
def searchAny (f : List Char → Bool) : List Char → Bool
  | [] => f []
  | b :: r => f (b :: r) || searchAny f r

/-- Parser primitive for an alternation of two literals such as `(this|null)`:
try the first alternative, fall back to the second. -/
def litAlt (p1 p2 : List Char) (s : List Char) : Option (List Char) :=
  match lit p1 s with
  | some r => some r
  | none => lit p2 s

/-- Sequencing of parser steps (monadic bind on `Option`, spelled out so
that proofs can unfold it reliably). -/
def pstep (r : Option (List Char)) (f : List Char → Option α) : Option α :=
  match r with
  | none => none
  | some s => f s

namespace RemoveInstanceProps

/-- Matcher for rule 1 anchored at the current position:
regex `public\s+static\s+\w+\s+Instance\s*\x7b` of `remove_instance_props.py`. -/
def propFrom (s0 : List Char) : Bool :=
  (pstep (lit (cs "public") s0) fun s1 =>
    pstep (ws1 s1) fun s2 =>
      pstep (lit (cs "static") s2) fun s3 =>
        pstep (ws1 s3) fun s4 =>
          pstep (word1 s4) fun s5 =>
            pstep (ws1 s5) fun s6 =>
              pstep (lit (cs "Instance") s6) fun s7 =>
                pstep (ws0 s7) fun s8 =>
                  lit (cs "\x7b") s8).isSome

/-- Rule 1 line test: `re.search` of the property-declaration regex. -/
def matchProp (line : List Char) : Bool := searchAny propFrom line

/-- Rule 2 line test: the two substring checks of the Awake guard
(`'if (Instance != null && Instance != this)' in line or
'if (Instance != null' in line`). -/
def matchGuard (line : List Char) : Bool :=
  hasSub (cs "if (Instance != null && Instance != this)") line ||
    hasSub (cs "if (Instance != null") line

/-- Matcher for rule 3 anchored at line start:
regex `^\s+Instance\s*=\s*(this|null);` (no end anchor). -/
def assignFrom (s0 : List Char) : Bool :=
  (pstep (ws1 s0) fun s1 =>
    pstep (lit (cs "Instance") s1) fun s2 =>
      pstep (ws0 s2) fun s3 =>
        pstep (lit (cs "=") s3) fun s4 =>
          pstep (ws0 s4) fun s5 =>
            pstep (litAlt (cs "this") (cs "null") s5) fun s6 =>
              lit (cs ";") s6).isSome

/-- Rule 3 line test (the regex is anchored with `^`, so `re.search`
matches only at the start of the line). -/
def matchAssign (line : List Char) : Bool := assignFrom line

/-- Matcher for rule 4 anchored at the current position:
regex `if\s*\(\s*Instance\s*==\s*this\s*\)`. -/
def teardownFrom (s0 : List Char) : Bool :=
  (pstep (lit (cs "if") s0) fun s1 =>
    pstep (ws0 s1) fun s2 =>
      pstep (lit (cs "(") s2) fun s3 =>
        pstep (ws0 s3) fun s4 =>
          pstep (lit (cs "Instance") s4) fun s5 =>
            pstep (ws0 s5) fun s6 =>
              pstep (lit (cs "==") s6) fun s7 =>
                pstep (ws0 s7) fun s8 =>
                  pstep (lit (cs "this") s8) fun s9 =>
                    pstep (ws0 s9) fun s10 =>
                      lit (cs ")") s10).isSome

/-- Rule 4 line test: `re.search` of the teardown-guard regex. -/
def matchTeardown (line : List Char) : Bool := searchAny teardownFrom line

/-- Closing-marker test used by every skip in the script: `'\x7d' in line`. -/
def hasBrace (line : List Char) : Bool := hasChar '\x7d' line

/-- Control state of the `remove_singleton_code` loop.
`scan skip` is the top of the `while i < len(lines)` loop, with `skip`
recording whether `skip_until` is set (rule 1 sets it to the closing
marker, so a `Bool` suffices).  `inner skip` is the inner
`while i < len(lines) and '\x7d' not in lines[i]` loop shared by rules 2
and 4 (plus the `i += 1` consuming the closing-marker line); the outer
`skip_until` flag is untouched while it runs, hence carried along. -/
inductive Mode where
  | scan (skip : Bool)
  | inner (skip : Bool)
deriving DecidableEq, Repr

/-- Main loop of `remove_singleton_code`.  The first component is
`new_lines`, the second is `removed_something`.  Exactly as in the source,
all four rule tests run on every line before the `skip_until` check, and a
rule-2/4 match whose own line already contains the closing marker consumes
only that line (the inner `while` exits immediately and `i += 1` runs). -/
def go (m : Mode) (ls : List (List Char)) : List (List Char) × Bool :=
  match m, ls with
  | _, [] => ([], false)
  | .scan skip, l :: rest =>
    if matchProp l then ((go (.scan true) rest).1, true)
    else if matchGuard l then
      (if hasBrace l then ((go (.scan skip) rest).1, true)
       else ((go (.inner skip) rest).1, true))
    else if matchAssign l then ((go (.scan skip) rest).1, true)
    else if matchTeardown l then
      (if hasBrace l then ((go (.scan skip) rest).1, true)
       else ((go (.inner skip) rest).1, true))
    else if skip then
      if hasBrace l then go (.scan false) rest else go (.scan true) rest
    else
      ((l :: (go (.scan false) rest).1), (go (.scan false) rest).2)
  | .inner skip, l :: rest =>
    if hasBrace l then go (.scan skip) rest else go (.inner skip) rest

/-- Embedding of `remove_singleton_code`: returns `(new_lines, removed_something)`. -/
def removeSingletonCode (ls : List (List Char)) : List (List Char) × Bool :=
  go (.scan false) ls

/-- Content of the file after `remove_singleton_code` ran on it: the filtered
lines when `removed_something` is true, the original lines otherwise
(the script writes the file only in that case). -/
def runRemove (ls : List (List Char)) : List (List Char) :=
  if (removeSingletonCode ls).2 then (removeSingletonCode ls).1 else ls

/-- Control state of the reference scan described by claim C8: after a match
opens a span, the scan only looks for the span's closing condition and never
tests another rule on lines within the span.  `propSkip` is an open rule-1
span, `innerSkip` an open rule-2/4 span. -/
inductive RMode where
  | scan
  | propSkip
  | innerSkip
deriving DecidableEq, Repr

/-- Reference scan of claim C8 (this definition follows the claim's words,
for comparison with `go`): identical rule dispatch, but once a rule-1 span
is open, lines inside it are checked only against the closing condition. -/
def goRef (m : RMode) (ls : List (List Char)) : List (List Char) × Bool :=
  match m, ls with
  | _, [] => ([], false)
  | .scan, l :: rest =>
    if matchProp l then ((goRef .propSkip rest).1, true)
    else if matchGuard l then
      (if hasBrace l then ((goRef .scan rest).1, true)
       else ((goRef .innerSkip rest).1, true))
    else if matchAssign l then ((goRef .scan rest).1, true)
    else if matchTeardown l then
      (if hasBrace l then ((goRef .scan rest).1, true)
       else ((goRef .innerSkip rest).1, true))
    else ((l :: (goRef .scan rest).1), (goRef .scan rest).2)
  | .propSkip, l :: rest =>
    if hasBrace l then goRef .scan rest else goRef .propSkip rest
  | .innerSkip, l :: rest =>
    if hasBrace l then goRef .scan rest else goRef .innerSkip rest

/-- File content produced by the reference scan of claim C8. -/
def runRemoveRef (ls : List (List Char)) : List (List Char) :=
  if (goRef .scan ls).2 then (goRef .scan ls).1 else ls

/-- Line shape asserted by claim C7 (this definition follows the claim's
words, for comparison with `matchAssign`): regex
`^\s*Instance\s*=\s*(this|null);$` — optional leading whitespace and an end
anchor after the semicolon (Python's `$` also matches just before a single
trailing newline). -/
def claimAssignShape (line : List Char) : Bool :=
  (pstep (ws0 line) fun s1 =>
    pstep (lit (cs "Instance") s1) fun s2 =>
      pstep (ws0 s2) fun s3 =>
        pstep (lit (cs "=") s3) fun s4 =>
          pstep (ws0 s4) fun s5 =>
            pstep (litAlt (cs "this") (cs "null") s5) fun s6 =>
              pstep (lit (cs ";") s6) fun s7 =>
                if s7 = [] || s7 = ['\n'] then some () else none).isSome

/-- Unterminated property block: the opening line matches rule 1 and no
later line contains the closing marker. -/
def exC1 : List (List Char) :=
  [cs "public static Foo Instance \x7b\n", cs "    return x;\n"]

/-- Guard block followed by one more statement line after the closing marker. -/
def exC4 : List (List Char) :=
  [cs "if (Instance != null)\n", cs "\x7b\n", cs "    x;\n", cs "\x7d\n",
   cs "after;\n"]

/-- Assignment line with no leading whitespace (matches the claimed shape of
C7 but not the script's regex). -/
def exC7a : List Char := cs "Instance = this;\n"

/-- Assignment line with trailing text after the semicolon (matches the
script's regex but not the claimed shape of C7). -/
def exC7b : List Char := cs "    Instance = this; // note\n"

/-- Property block whose span contains a teardown-guard line: the code fires
rule 4 inside the rule-1 span, the reference scan of claim C8 does not. -/
def exC8 : List (List Char) :=
  [cs "public static Foo Instance \x7b\n", cs "    if (Instance == this)\n",
   cs "    \x7b\n", cs "        x;\n", cs "    \x7d\n", cs "\x7d\n",
   cs "tail;\n"]

/-- Input with no rule-1 match, used to instantiate the amended claim C8. -/
def exC8w : List (List Char) :=
  [cs "if (Instance != null)\n", cs "\x7d\n", cs "k;\n"]

/-- Configuration list `REMOVED_SINGLETONS` of `remove_instance_props.py`
(the remove-list of the Pattern Catalog). -/
def REMOVED_SINGLETONS : List String :=
  ["AchievementSystem", "ArenaManager", "GamepadRumble", "MusicManager",
   "EnvironmentParticles", "FeedbackManager", "PostProcessManager",
   "ShipCustomization", "DamageNumberPopup", "Minimap",
   "StarfieldController", "UIManager"]

end RemoveInstanceProps

namespace FixInstances

/-- Configuration list `REMOVED_SINGLETONS` of `fix_instances.py`
(the replace-list of the Pattern Catalog). -/
def REMOVED_SINGLETONS : List String :=
  ["AchievementSystem", "ArenaManager", "PlayerLevelSystem",
   "WeaponUpgradeManager", "GamepadRumble", "MusicManager", "UIFeedbacks",
   "ScreenFlash", "VFXManager", "EnemyDeathVFX", "StarfieldController",
   "EnvironmentParticles", "FeedbackManager", "PostProcessManager",
   "HighScoreManager", "ShipCustomization", "WaveAnnouncement",
   "ControlsOverlay", "DamageNumberPopup", "Minimap", "FeedbackSetup",
   "UIManager"]

/-- Configuration list `KEPT_SINGLETONS` of `fix_instances.py`
(the keep-list of the Pattern Catalog). -/
def KEPT_SINGLETONS : List String :=
  ["GameManager", "LevelManager", "InputManager", "AudioManager",
   "SaveSystem", "AccessibilityManager", "EnemyProjectilePool"]

/-- Search pattern of `fix_file` for one symbol: the text matched by the
regex `\b<name>\.Instance\b` (the `\b` anchors are checked separately). -/
def instPat (name : String) : List Char := cs name ++ cs ".Instance"

/-- Replacement text of `fix_file` for one symbol:
`FindObjectOfType<name>()`. -/
def instRepl (name : String) : List Char := cs "FindObjectOfType<" ++ cs name ++ cs ">()"

/-- Right word-boundary test: `\b` holds after the match iff the next
character is absent or not a word character (the last pattern character,
`e`, is a word character). -/
def rightBound (x : List Char) : Bool :=
  match x with
  | [] => true
  | d :: _ => !pyIsWord d

/-- Scanner for one `re.sub(\b<pat>\b, repl, s)` pass, left-to-right and
non-overlapping.  `prevW` records whether the previously consumed input
character is a word character (the left `\b` test: the pattern starts with a
word character, so the boundary holds iff `prevW` is false).  `k` counts
pattern characters still to consume after a fire, so the recursion stays
structural; while consuming, `prevW` is updated from the consumed input
character, which leaves exactly the word-ness of the pattern's last
character when scanning resumes — the same state `re` has, since boundaries
are evaluated on the input string. -/
def wbGo (pat repl : List Char) : List Char → Nat → Bool → List Char
  | [], _, _ => []
  | c :: r, 0, prevW =>
    if !prevW && begins pat (c :: r) && rightBound (List.drop pat.length (c :: r)) then
      repl ++ wbGo pat repl r (pat.length - 1) (pyIsWord c)
    else
      c :: wbGo pat repl r 0 (pyIsWord c)
  | c :: r, k + 1, _ => wbGo pat repl r k (pyIsWord c)

/-- Embedding of one `re.sub` call of `fix_file` on whole content. -/
def reSubWB (pat repl s : List Char) : List Char := wbGo pat repl s 0 false

/-- Embedding of `fix_file` on file content: one word-boundary substitution
pass per replace-list symbol, in list order (the `re.search` guard in the
source only skips a substitution that would be the identity anyway, and the
write-back only skips writing unchanged content). -/
def fixContent (s : List Char) : List Char :=
  REMOVED_SINGLETONS.foldl (fun acc n => reSubWB (instPat n) (instRepl n) acc) s

/-- Positional test: does `pat` occur in `s` starting at index `p`? -/
def occursAt (pat s : List Char) (p : Nat) : Bool := begins pat (s.drop p)

/-- Positional test: is the character just before index `p` a word character? -/
def leftWordAt (s : List Char) (p : Nat) : Bool :=
  decide (p ≠ 0) &&
    (match s.drop (p - 1) with
     | c :: _ => pyIsWord c
     | [] => false)

/-- Positional test: is the character just after an occurrence of `pat` at
index `p` a word character? -/
def rightWordAt (pat s : List Char) (p : Nat) : Bool :=
  match s.drop (p + pat.length) with
  | c :: _ => pyIsWord c
  | [] => false

/-- Decidable shield condition of claim C9: every occurrence of `pat` in `s`
is embedded in a longer identifier (a word character directly before or
directly after it), so the word-boundary anchors reject it. -/
def shieldB (pat s : List Char) : Bool :=
  (List.range s.length).all fun p =>
    !occursAt pat s p || leftWordAt s p || rightWordAt pat s p

end FixInstances

namespace UpdateDebugLogs

/-- Search text of `DEBUG_LOG_PATTERN` after its `(\s+)` group. -/
def pat1 : List Char := cs "Debug.Log("

/-- Replacement text of `DEBUG_LOG_PATTERN` after the restored group. -/
def repl1 : List Char := cs "LogHelper.Log("

/-- Search text of `DEBUG_LOG_WARNING_PATTERN` after its `(\s+)` group. -/
def pat2 : List Char := cs "Debug.LogWarning("

/-- Replacement text of `DEBUG_LOG_WARNING_PATTERN` after the restored group. -/
def repl2 : List Char := cs "LogHelper.LogWarning("

/-- Scanner for one `re.sub((\s+)<pat>, \1<repl>, s)` pass.  Since the
`(\s+)` group is restored verbatim by the replacement, the substitution
replaces exactly the occurrences of `pat` whose directly preceding input
character is whitespace; `p` records whether the previously consumed input
character is whitespace, and `k` counts pattern characters still to consume
after a fire (keeping the recursion structural, with `p` updated from
consumed input characters exactly as `re` evaluates the next `(\s+)` on the
input). -/
def wgo (pat repl : List Char) : List Char → Nat → Bool → List Char
  | [], _, _ => []
  | c :: r, 0, p =>
    if p && begins pat (c :: r) then
      repl ++ wgo pat repl r (pat.length - 1) (pyIsSpace c)
    else
      c :: wgo pat repl r 0 (pyIsSpace c)
  | c :: r, k + 1, _ => wgo pat repl r k (pyIsSpace c)

/-- Embedding of one whitespace-preceded `re.sub` pass on whole content
(a match cannot start at position 0: the `(\s+)` group needs a preceding
whitespace character inside the match). -/
def reSubWS (pat repl s : List Char) : List Char := wgo pat repl s 0 false

/-- Embedding of `replace_debug_calls`: the `Debug.Log(` pass, then the
`Debug.LogWarning(` pass on its output; `Debug.LogError` is never touched. -/
def replaceDebugCalls (s : List Char) : List Char :=
  reSubWS pat2 repl2 (reSubWS pat1 repl1 s)

/-- Import literal `USING_STATEMENT` of `update_debug_logs.py`. -/
def USING : List Char := cs "using NeuralBreak.Utils;"

/-- Newline class `[\r\n]` of `USING_SECTION_PATTERN`. -/
def isNl (c : Char) : Bool := c = '\n' || c = '\r'

/-- Matcher for one unit `using [^;]+;[\r\n]+` of `USING_SECTION_PATTERN`
anchored at the current position, returning the number of characters
matched.  The run `[^;]+` can only stop at the next `;`, and `[\r\n]+` is
followed by nothing that could force backtracking into it, so greedy
maximal munch is exact. -/
def matchUnit (s : List Char) : Option Nat :=
  match lit (cs "using ") s with
  | none => none
  | some s1 =>
    if (s1.takeWhile fun c => decide (c ≠ ';')).length = 0 then none
    else
      match s1.drop (s1.takeWhile fun c => decide (c ≠ ';')).length with
      | d :: s2 =>
        if d = ';' then
          if (s2.takeWhile isNl).length = 0 then none
          else some (6 + (s1.takeWhile fun c => decide (c ≠ ';')).length + 1 +
            (s2.takeWhile isNl).length)
        else none
      | [] => none

/-- Fuelled matcher for `(using [^;]+;[\r\n]+)+` anchored at the current
position: one fuel unit per repetition; any fuel above the input length is
enough, since every unit consumes at least one character. -/
def matchRunF : Nat → List Char → Option Nat
  | 0, _ => none
  | fuel + 1, s =>
    match matchUnit s with
    | none => none
    | some n =>
      match matchRunF fuel (s.drop n) with
      | some m => some (n + m)
      | none => some n

/-- Matcher for `USING_SECTION_PATTERN` anchored at the current position. -/
def matchRun (s : List Char) : Option Nat := matchRunF (s.length + 1) s

/-- Fuelled scan embedding `finditer` + `matches[-1].end()`: walk positions
left to right, record the end of every match, resume after each match, and
return the last recorded end. -/
def scanLastF : Nat → Nat → List Char → Option Nat → Option Nat
  | 0, _, _, acc => acc
  | fuel + 1, pos, s, acc =>
    match s with
    | [] => acc
    | _ :: r =>
      match matchRun s with
      | some n => scanLastF fuel (pos + n) (s.drop n) (some (pos + n))
      | none => scanLastF fuel (pos + 1) r acc

/-- End position of the last `USING_SECTION_PATTERN` match in `s`, when any. -/
def scanLast (s : List Char) : Option Nat := scanLastF (s.length + 1) 0 s none

/-- Fuel-saturated view of the scan, for reasoning: the scan on `s` from
position `pos` with accumulator `acc` (any fuel above `s.length` computes
the same value, see `scanLastF_congr`). -/
def SL (pos : Nat) (s : List Char) (acc : Option Nat) : Option Nat :=
  scanLastF (s.length + 1) pos s acc

/-- Word-or-dot class `[\w\.]` of the namespace regex. -/
def isWordDot (c : Char) : Bool := pyIsWord c || c = '.'

/-- Parser primitive for `[\w\.]+`: maximal nonempty word-or-dot run. -/
def wd1 : List Char → Option (List Char)
  | [] => none
  | c :: r => if isWordDot c then some (List.dropWhile isWordDot r) else none

/-- Matcher for the regex `namespace\s+[\w\.]+\s*\x7b` anchored at the
current position. -/
def nsFrom (s0 : List Char) : Bool :=
  (pstep (lit (cs "namespace") s0) fun s1 =>
    pstep (ws1 s1) fun s2 =>
      pstep (wd1 s2) fun s3 =>
        pstep (ws0 s3) fun s4 =>
          lit (cs "\x7b") s4).isSome

/-- First position at which `f` accepts the corresponding suffix
(`re.search(...).start()`). -/
def firstPos (f : List Char → Bool) : List Char → Option Nat
  | [] => if f [] then some 0 else none
  | c :: r => if f (c :: r) then some 0 else (firstPos f r).map (· + 1)

/-- Embedding of `add_using_statement`. -/
def addUsing (s : List Char) : List Char :=
  if hasSub USING s then s
  else
    match scanLast s with
    | some e => s.take e ++ USING ++ ('\n' :: s.drop e)
    | none =>
      match firstPos nsFrom s with
      | some p => s.take p ++ USING ++ (cs "\n\n" ++ s.drop p)
      | none => USING ++ cs "\n\n" ++ s

/-- Number of occurrences of a nonempty pattern in `s` (all start
positions counted). -/
def countOcc (pat : List Char) : List Char → Nat
  | [] => 0
  | c :: r => (if begins pat (c :: r) then 1 else 0) + countOcc pat r

/-- Final scanner state after consuming the characters of `u`, starting
from state `p` (the whitespace-ness of the last consumed character). -/
def lastB (p : Bool) (u : List Char) : Bool :=
  u.foldl (fun _ c => pyIsSpace c) p

end UpdateDebugLogs

/-! Theorems.  First some bridges between the executable Boolean string
primitives and their propositional descriptions. -/

lemma begins_iff : ∀ p s : List Char, begins p s = true ↔ ∃ t, s = p ++ t
  | [], s => by simp [begins]
  | a :: as, [] => by simp [begins]
  | a :: as, b :: bs => by
    simp only [begins, Bool.and_eq_true, decide_eq_true_eq]
    constructor
    · rintro ⟨rfl, h⟩
      obtain ⟨t, rfl⟩ := (begins_iff as bs).1 h
      exact ⟨t, rfl⟩
    · rintro ⟨t, ht⟩
      injection ht with h1 h2
      subst h1
      subst h2
      exact ⟨rfl, (begins_iff as _).2 ⟨t, rfl⟩⟩

lemma begins_app (p t : List Char) : begins p (p ++ t) = true :=
  (begins_iff _ _).2 ⟨t, rfl⟩

lemma begins_self (p : List Char) : begins p p = true := by
  have := begins_app p []
  simpa using this

lemma hasSub_iff : ∀ p s : List Char, hasSub p s = true ↔ ∃ a b, s = a ++ p ++ b
  | p, [] => by
    simp only [hasSub]
    rw [begins_iff]
    constructor
    · rintro ⟨t, ht⟩
      exact ⟨[], t, by simpa using ht⟩
    · rintro ⟨a, b, h⟩
      cases a with
      | nil => exact ⟨b, by simpa using h⟩
      | cons x xs => simp at h
  | p, c :: r => by
    simp only [hasSub, Bool.or_eq_true]
    rw [begins_iff, hasSub_iff p r]
    constructor
    · rintro (⟨t, ht⟩ | ⟨a, b, h⟩)
      · exact ⟨[], t, by simpa using ht⟩
      · exact ⟨c :: a, b, by simp [h]⟩
    · rintro ⟨a, b, h⟩
      cases a with
      | nil => exact Or.inl ⟨b, by simpa using h⟩
      | cons x xs =>
        injection h with h1 h2
        exact Or.inr ⟨xs, b, h2⟩

lemma pstep_some_inv {α : Type} {r : Option (List Char)} {f : List Char → Option α}
    {v : α} (h : pstep r f = some v) : ∃ s, r = some s ∧ f s = some v := by
  cases r with
  | none => simp [pstep] at h
  | some s => exact ⟨s, rfl, h⟩

lemma lit_some : ∀ pat s s' : List Char, lit pat s = some s' → s = pat ++ s'
  | [], s, s' => by
    intro h
    simp [lit] at h
    simp [h]
  | a :: as, [], s' => by simp [lit]
  | a :: as, b :: bs, s' => by
    by_cases hab : a = b
    · subst hab
      simp only [lit, if_pos rfl]
      intro h
      have := lit_some as bs s' h
      simp [this]
    · simp [lit, hab]

lemma lit_app : ∀ pat t : List Char, lit pat (pat ++ t) = some t
  | [], t => rfl
  | a :: as, t => by simp [lit, lit_app as t]

lemma dropWhile_app_all (p : Char → Bool) (w x : List Char)
    (hw : ∀ c ∈ w, p c = true) :
    List.dropWhile p (w ++ x) = List.dropWhile p x := by
  induction w with
  | nil => rfl
  | cons c w ih =>
    have hc := hw c (List.mem_cons_self c w)
    simp only [List.cons_append, List.dropWhile_cons, hc, if_pos]
    exact ih fun d hd => hw d (List.mem_cons_of_mem _ hd)

lemma ws1_some (s s' : List Char) (h : ws1 s = some s') :
    ∃ w, w ≠ [] ∧ (∀ c ∈ w, pyIsSpace c = true) ∧ s = w ++ s' := by
  cases s with
  | nil => simp [ws1] at h
  | cons c r =>
    by_cases hc : pyIsSpace c
    · simp only [ws1, hc, if_pos, Option.some_inj] at h
      refine ⟨c :: r.takeWhile pyIsSpace, by simp, ?_, ?_⟩
      · intro x hx
        rcases List.mem_cons.1 hx with rfl | hx
        · exact hc
        · exact List.mem_takeWhile_imp hx
      · rw [List.cons_append, ← h, List.takeWhile_append_dropWhile]
    · simp [ws1, hc] at h

lemma ws0_some (s s' : List Char) (h : ws0 s = some s') :
    ∃ w, (∀ c ∈ w, pyIsSpace c = true) ∧ s = w ++ s' := by
  simp only [ws0, Option.some_inj] at h
  refine ⟨s.takeWhile pyIsSpace, ?_, ?_⟩
  · intro x hx
    exact List.mem_takeWhile_imp hx
  · rw [← h, List.takeWhile_append_dropWhile]

lemma ws1_app (w : List Char) (d : Char) (r : List Char) (hw : w ≠ [])
    (hws : ∀ c ∈ w, pyIsSpace c = true) (hd : pyIsSpace d = false) :
    ws1 (w ++ d :: r) = some (d :: r) := by
  cases w with
  | nil => exact absurd rfl hw
  | cons c w' =>
    have hc := hws c (List.mem_cons_self c w')
    have hall : ∀ x ∈ w', pyIsSpace x = true := fun x hx => hws x (List.mem_cons_of_mem _ hx)
    simp [ws1, hc, dropWhile_app_all pyIsSpace w' (d :: r) hall, List.dropWhile_cons, hd]

lemma ws0_app (w : List Char) (d : Char) (r : List Char)
    (hws : ∀ c ∈ w, pyIsSpace c = true) (hd : pyIsSpace d = false) :
    ws0 (w ++ d :: r) = some (d :: r) := by
  simp [ws0, dropWhile_app_all pyIsSpace w (d :: r) hws, List.dropWhile_cons, hd]

lemma litAlt_some {p1 p2 s r : List Char} (h : litAlt p1 p2 s = some r) :
    s = p1 ++ r ∨ s = p2 ++ r := by
  unfold litAlt at h
  cases hl : lit p1 s with
  | some u =>
    rw [hl] at h
    injection h with h
    subst h
    exact Or.inl (lit_some _ _ _ hl)
  | none =>
    rw [hl] at h
    exact Or.inr (lit_some _ _ _ h)

lemma litAlt_left {p1 p2 s r : List Char} (h : lit p1 s = some r) :
    litAlt p1 p2 s = some r := by
  unfold litAlt
  rw [h]

lemma litAlt_right {p1 p2 s : List Char} (h : lit p1 s = none) :
    litAlt p1 p2 s = lit p2 s := by
  unfold litAlt
  rw [h]

namespace RemoveInstanceProps

lemma go_fst_sublist (m : Mode) (ls : List (List Char)) : List.Sublist (go m ls).1 ls := by
  induction ls generalizing m with
  | nil => cases m <;> simp [go]
  | cons l rest ih =>
    cases m with
    | scan skip =>
      by_cases h1 : matchProp l
      · simpa [go, h1] using (ih (.scan true)).cons l
      · by_cases h2 : matchGuard l
        · by_cases hb : hasBrace l
          · simpa [go, h1, h2, hb] using (ih (.scan skip)).cons l
          · simpa [go, h1, h2, hb] using (ih (.inner skip)).cons l
        · by_cases h3 : matchAssign l
          · simpa [go, h1, h2, h3] using (ih (.scan skip)).cons l
          · by_cases h4 : matchTeardown l
            · by_cases hb : hasBrace l
              · simpa [go, h1, h2, h3, h4, hb] using (ih (.scan skip)).cons l
              · simpa [go, h1, h2, h3, h4, hb] using (ih (.inner skip)).cons l
            · by_cases hs : skip
              · by_cases hb : hasBrace l
                · simpa [go, h1, h2, h3, h4, hs, hb] using (ih (.scan false)).cons l
                · simpa [go, h1, h2, h3, h4, hs, hb] using (ih (.scan true)).cons l
              · simpa [go, h1, h2, h3, h4, hs] using (ih (.scan false)).cons₂ l
    | inner skip =>
      by_cases hb : hasBrace l
      · simpa [go, hb] using (ih (.scan skip)).cons l
      · simpa [go, hb] using (ih (.inner skip)).cons l

/-- C10: for every input the Block Remover's output line sequence is a
sublist (order-preserving selection of whole lines) of the input line
sequence — lines are only ever deleted, never inserted, duplicated,
reordered or edited. -/
theorem C10_output_is_sublist (ls : List (List Char)) : List.Sublist (runRemove ls) ls := by
  unfold runRemove removeSingletonCode
  by_cases h : (go (.scan false) ls).2
  · simpa [h] using go_fst_sublist (.scan false) ls
  · simp [h]

lemma go_scan_true_all_plain (rest : List (List Char))
    (h : ∀ x ∈ rest, hasBrace x = false ∧ matchProp x = false ∧ matchGuard x = false ∧
      matchAssign x = false ∧ matchTeardown x = false) :
    go (.scan true) rest = ([], false) := by
  induction rest with
  | nil => simp [go]
  | cons l rest ih =>
    obtain ⟨hb, h1, h2, h3, h4⟩ := h l (List.mem_cons_self l rest)
    have ih' := ih fun x hx => h x (List.mem_cons_of_mem l hx)
    simp [go, h1, h2, h3, h4, hb, ih']

/-- C1 (amended): when a rule-1 property-declaration line is followed only
by lines that contain no closing marker (and fire no rule), the opening
line and every following line are deleted: the skip runs to end of file and
the output is empty, not identical to the input. -/
theorem C1_amended_unterminated_block_truncates (l : List Char) (rest : List (List Char))
    (hl : matchProp l = true)
    (h : ∀ x ∈ rest, hasBrace x = false ∧ matchProp x = false ∧ matchGuard x = false ∧
      matchAssign x = false ∧ matchTeardown x = false) :
    runRemove (l :: rest) = [] := by
  unfold runRemove removeSingletonCode
  simp [go, hl, go_scan_true_all_plain rest h]

/-- C1 witness: the amended theorem applied to the concrete unterminated
property block `exC1`. -/
theorem C1_amended_witness : runRemove exC1 = [] :=
  C1_amended_unterminated_block_truncates _ _ (by decide) (by decide)

/-- C1 counterexample: `exC1` opens a property block (rule 1) and no later
line contains the closing marker, yet the output is not byte-identical to
the input — the whole file is consumed, refuting the claim that the match
is abandoned and the file left unmodified. -/
theorem C1_counterexample :
    matchProp (cs "public static Foo Instance \x7b\n") = true ∧
    (∀ l ∈ exC1.drop 1, hasBrace l = false) ∧
    runRemove exC1 ≠ exC1 := by decide

lemma go_inner_through (skip : Bool) (b : List Char) (body rest : List (List Char))
    (hbody : ∀ x ∈ body, hasBrace x = false) (hb : hasBrace b = true) :
    go (.inner skip) (body ++ b :: rest) = go (.scan skip) rest := by
  induction body with
  | nil => simp [go, hb]
  | cons x body ih =>
    have hx := hbody x (List.mem_cons_self x body)
    have ih' := ih fun y hy => hbody y (List.mem_cons_of_mem x hy)
    simp [go, hx, ih']

/-- C4 (amended): the guard-block rule (rule 2) and the teardown-guard rule
(rule 4) skip identically — each consumes the matched line, every following
line up to and including the first line containing a closing marker, and
nothing more; no additional line after the closing marker is skipped by
either rule, and scanning resumes at the very next line. -/
theorem C4_amended_guard_and_teardown_skip_identically (skip : Bool) (l b : List Char)
    (body rest : List (List Char))
    (hp : matchProp l = false)
    (hl : matchGuard l = true ∨
      (matchGuard l = false ∧ matchAssign l = false ∧ matchTeardown l = true))
    (hbl : hasBrace l = false)
    (hbody : ∀ x ∈ body, hasBrace x = false)
    (hb : hasBrace b = true) :
    go (.scan skip) (l :: (body ++ b :: rest)) = ((go (.scan skip) rest).1, true) := by
  have hinner := go_inner_through skip b body rest hbody hb
  rcases hl with h2 | ⟨h2, h3, h4⟩
  · simp [go, hp, h2, hbl, hinner]
  · simp [go, hp, h2, h3, h4, hbl, hinner]

/-- C4 witness: the amended theorem applied to the concrete guard block of
`exC4`; the line directly after the closing marker is where scanning
resumes, so it survives. -/
theorem C4_amended_witness :
    go (.scan false)
      (cs "if (Instance != null)\n" ::
        ([cs "\x7b\n", cs "    x;\n"] ++ cs "\x7d\n" :: [cs "after;\n"])) =
      ((go (.scan false) [cs "after;\n"]).1, true) :=
  C4_amended_guard_and_teardown_skip_identically false _ _ _ _ (by decide)
    (Or.inl (by decide)) (by decide) (by decide) (by decide)

/-- C4 counterexample: in `exC4` the guard block is followed by the line
`after;` directly after the closing-marker line; the claim says rule 2
skips that additional line, but the code keeps it — the output is exactly
`[after;]`, not `[]`. -/
theorem C4_counterexample :
    matchGuard (cs "if (Instance != null)\n") = true ∧
    hasBrace (cs "\x7d\n") = true ∧
    runRemove exC4 = [cs "after;\n"] := by decide

lemma goRef_agrees_without_prop (ls : List (List Char))
    (h : ∀ l ∈ ls, matchProp l = false) :
    go (.scan false) ls = goRef .scan ls ∧ go (.inner false) ls = goRef .innerSkip ls := by
  induction ls with
  | nil => simp [go, goRef]
  | cons l rest ih =>
    have hp := h l (List.mem_cons_self l rest)
    have ih' := ih fun x hx => h x (List.mem_cons_of_mem l hx)
    constructor
    · by_cases h2 : matchGuard l
      · by_cases hb : hasBrace l
        · simp [go, goRef, hp, h2, hb, ih'.1]
        · simp [go, goRef, hp, h2, hb, ih'.2]
      · by_cases h3 : matchAssign l
        · simp [go, goRef, hp, h2, h3, ih'.1]
        · by_cases h4 : matchTeardown l
          · by_cases hb : hasBrace l
            · simp [go, goRef, hp, h2, h3, h4, hb, ih'.1]
            · simp [go, goRef, hp, h2, h3, h4, hb, ih'.2]
          · simp [go, goRef, hp, h2, h3, h4, ih'.1]
    · by_cases hb : hasBrace l
      · simp [go, goRef, hb, ih'.1]
      · simp [go, goRef, hb, ih'.2]

/-- C8 (amended): inside rule-2/4 spans no other rule is ever tested, so on
any input without a rule-1 (property-declaration) match the code's output
coincides with the reference scan that only watches for each span's closing
condition; the equality fails in general only because lines inside a rule-1
span are still tested against all rules (see the counterexample). -/
theorem C8_amended_reference_scan_agrees_without_rule1 (ls : List (List Char))
    (h : ∀ l ∈ ls, matchProp l = false) :
    runRemove ls = runRemoveRef ls := by
  unfold runRemove removeSingletonCode runRemoveRef
  rw [(goRef_agrees_without_prop ls h).1]

/-- C8 witness: the amended theorem applied to the concrete input `exC8w`,
which contains guard and teardown matches but no property declaration. -/
theorem C8_amended_witness : runRemove exC8w = runRemoveRef exC8w :=
  C8_amended_reference_scan_agrees_without_rule1 exC8w (by decide)

/-- C8 counterexample: in `exC8` a rule-1 property span contains a
teardown-guard line; the code tests and fires rule 4 on it (consuming
through the inner closing marker and leaving the outer `\x7d` line to close
the rule-1 span), while the claim's reference scan closes the rule-1 span
at the first closing marker without testing rules inside it — the two
outputs differ on this input. -/
theorem C8_counterexample :
    runRemove exC8 = [cs "tail;\n"] ∧
    runRemoveRef exC8 = [cs "\x7d\n", cs "tail;\n"] ∧
    runRemove exC8 ≠ runRemoveRef exC8 := by decide

lemma lit_this_of_null (W : List Char) : lit (cs "this") (cs "null" ++ W) = none := by
  show lit ('t' :: cs "his") ('n' :: (cs "ull" ++ W)) = none
  rw [lit]
  rw [if_neg]
  decide

/-- C7 (amended): the single-assignment rule deletes a line outright, with
no block scan, exactly when the line matches `^\s+Instance\s*=\s*(this|null);`
— at least one leading whitespace character is required (not optional), and
there is no end anchor, so arbitrary trailing text after the semicolon is
allowed.  The first conjunct is the deletion behaviour, the second
characterises the matched shape. -/
theorem C7_amended_assignment_rule_shape :
    (∀ (skip : Bool) (l : List Char) (rest : List (List Char)),
        matchProp l = false → matchGuard l = false → matchAssign l = true →
        go (.scan skip) (l :: rest) = ((go (.scan skip) rest).1, true)) ∧
    (∀ l : List Char, matchAssign l = true ↔
        ∃ w m1 m2 v t, w ≠ [] ∧ (∀ c ∈ w, pyIsSpace c = true) ∧
          (∀ c ∈ m1, pyIsSpace c = true) ∧ (∀ c ∈ m2, pyIsSpace c = true) ∧
          (v = cs "this" ∨ v = cs "null") ∧
          l = w ++ (cs "Instance" ++ (m1 ++ (cs "=" ++ (m2 ++ (v ++ (cs ";" ++ t))))))) := by
  constructor
  · intro skip l rest h1 h2 h3
    simp [go, h1, h2, h3]
  · intro l
    constructor
    · intro h
      unfold matchAssign assignFrom at h
      obtain ⟨v0, hv0⟩ := Option.isSome_iff_exists.1 h
      obtain ⟨s1, h1, hv0⟩ := pstep_some_inv hv0
      obtain ⟨s2, h2, hv0⟩ := pstep_some_inv hv0
      obtain ⟨s3, h3, hv0⟩ := pstep_some_inv hv0
      obtain ⟨s4, h4, hv0⟩ := pstep_some_inv hv0
      obtain ⟨s5, h5, hv0⟩ := pstep_some_inv hv0
      obtain ⟨s6, h6, hv0⟩ := pstep_some_inv hv0
      obtain ⟨w, hw, hws, hl⟩ := ws1_some _ _ h1
      have e2 := lit_some _ _ _ h2
      obtain ⟨m1, hm1, e3⟩ := ws0_some _ _ h3
      have e4 := lit_some _ _ _ h4
      obtain ⟨m2, hm2, e5⟩ := ws0_some _ _ h5
      have e7 := lit_some _ _ _ hv0
      rcases litAlt_some h6 with e6 | e6
      · exact ⟨w, m1, m2, cs "this", v0, hw, hws, hm1, hm2, Or.inl rfl,
          by rw [hl, e2, e3, e4, e5, e6, e7]⟩
      · exact ⟨w, m1, m2, cs "null", v0, hw, hws, hm1, hm2, Or.inr rfl,
          by rw [hl, e2, e3, e4, e5, e6, e7]⟩
    · rintro ⟨w, m1, m2, v, t, hw, hws, hm1, hm2, hv, rfl⟩
      unfold matchAssign assignFrom
      have h1 : ws1 (w ++ (cs "Instance" ++ (m1 ++ (cs "=" ++ (m2 ++ (v ++ (cs ";" ++ t))))))) =
          some (cs "Instance" ++ (m1 ++ (cs "=" ++ (m2 ++ (v ++ (cs ";" ++ t)))))) := by
        rw [show cs "Instance" ++ (m1 ++ (cs "=" ++ (m2 ++ (v ++ (cs ";" ++ t))))) =
          'I' :: (cs "nstance" ++ (m1 ++ (cs "=" ++ (m2 ++ (v ++ (cs ";" ++ t)))))) from rfl]
        exact ws1_app w 'I' _ hw hws (by decide)
      have h3 : ws0 (m1 ++ (cs "=" ++ (m2 ++ (v ++ (cs ";" ++ t))))) =
          some (cs "=" ++ (m2 ++ (v ++ (cs ";" ++ t)))) := by
        rw [show cs "=" ++ (m2 ++ (v ++ (cs ";" ++ t))) =
          '=' :: (m2 ++ (v ++ (cs ";" ++ t))) from rfl]
        exact ws0_app m1 '=' _ hm1 (by decide)
      rw [h1]
      simp only [pstep]
      rw [lit_app]
      simp only [pstep]
      rw [h3]
      simp only [pstep]
      rw [lit_app]
      simp only [pstep]
      rcases hv with rfl | rfl
      · have h5 : ws0 (m2 ++ (cs "this" ++ (cs ";" ++ t))) =
            some (cs "this" ++ (cs ";" ++ t)) := by
          rw [show cs "this" ++ (cs ";" ++ t) = 't' :: (cs "his" ++ (cs ";" ++ t)) from rfl]
          exact ws0_app m2 't' _ hm2 (by decide)
        rw [h5]
        simp only [pstep]
        rw [litAlt_left (lit_app (cs "this") (cs ";" ++ t))]
        simp only [pstep]
        rw [lit_app]
        rfl
      · have h5 : ws0 (m2 ++ (cs "null" ++ (cs ";" ++ t))) =
            some (cs "null" ++ (cs ";" ++ t)) := by
          rw [show cs "null" ++ (cs ";" ++ t) = 'n' :: (cs "ull" ++ (cs ";" ++ t)) from rfl]
          exact ws0_app m2 'n' _ hm2 (by decide)
        rw [h5]
        simp only [pstep]
        rw [litAlt_right (lit_this_of_null (cs ";" ++ t)), lit_app]
        simp only [pstep]
        rw [lit_app]
        rfl

/-- C7 witness: the amended shape applied to a concrete line with leading
whitespace and trailing text after the semicolon. -/
theorem C7_amended_witness : matchAssign (cs "  Instance = null; // x\n") = true :=
  (C7_amended_assignment_rule_shape.2 _).2
    ⟨cs "  ", cs " ", cs " ", cs "null", cs " // x\n", by decide, by decide,
      by decide, by decide, Or.inr rfl, by decide⟩

/-- C7 counterexample: `exC7a` matches the claimed regex
`^\s*Instance\s*=\s*(this|null);$` (no leading whitespace needed) yet the
pass keeps it, while `exC7b` fails the claimed regex (text after the
semicolon) yet the pass deletes it — the claimed shape is wrong in both
directions. -/
theorem C7_counterexample :
    claimAssignShape exC7a = true ∧ runRemove [exC7a] = [exC7a] ∧
    claimAssignShape exC7b = false ∧ runRemove [exC7b] = [] := by decide

end RemoveInstanceProps

/-- C2 counterexample: the symbol `AchievementSystem` appears in two
disposition lists at once — the replace-list of `fix_instances.py` and the
remove-list of `remove_instance_props.py` — so the claimed invariant that a
symbol appears in at most one disposition is violated by the shipped
configuration itself, and nothing rejects it. -/
theorem C2_counterexample :
    "AchievementSystem" ∈ FixInstances.REMOVED_SINGLETONS ∧
    "AchievementSystem" ∈ RemoveInstanceProps.REMOVED_SINGLETONS := by decide

/-- C2 (amended): no catalog validation exists at construction time; in
fact every remove-list symbol also appears in the replace-list, and both
passes happily process content for such a doubly-listed symbol at runtime
(here `AchievementSystem`: the Reference Rewriter rewrites its accessor and
the Block Remover deletes its assignment line, with no error anywhere). -/
theorem C2_amended_no_catalog_validation :
    (∀ n ∈ RemoveInstanceProps.REMOVED_SINGLETONS, n ∈ FixInstances.REMOVED_SINGLETONS) ∧
    FixInstances.fixContent (cs "AchievementSystem.Instance.x();") =
      cs "FindObjectOfType<AchievementSystem>().x();" ∧
    RemoveInstanceProps.runRemove [cs "    Instance = this;\n"] = [] := by decide

/-- C2 witness: the amended theorem applied to the concrete symbol `Minimap`. -/
theorem C2_amended_witness : "Minimap" ∈ FixInstances.REMOVED_SINGLETONS :=
  C2_amended_no_catalog_validation.1 "Minimap" (by decide)

namespace FixInstances

lemma wbGo_noop (pat repl : List Char) :
    ∀ (s : List Char) (prevW : Bool),
      (∀ a b, s = a ++ pat ++ b →
        (a = [] ∧ prevW = true) ∨
        (∃ a0 c, a = a0 ++ [c] ∧ pyIsWord c = true) ∨
        (∃ d b0, b = d :: b0 ∧ pyIsWord d = true)) →
      wbGo pat repl s 0 prevW = s := by
  intro s
  induction s with
  | nil => intro prevW H; simp [wbGo]
  | cons c r ih =>
    intro prevW H
    cases hfire : (!prevW && begins pat (c :: r) &&
        rightBound (List.drop pat.length (c :: r))) with
    | true =>
      exfalso
      rw [Bool.and_eq_true, Bool.and_eq_true] at hfire
      obtain ⟨⟨hnp, hbeg⟩, hrb⟩ := hfire
      obtain ⟨b, hb⟩ := (begins_iff _ _).1 hbeg
      rcases H [] b (by simpa using hb) with ⟨_, hpw⟩ | ⟨a0, c0, ha, _⟩ | ⟨d, b0, hbb, hwd⟩
      · rw [hpw] at hnp
        simp at hnp
      · rcases a0 with _ | ⟨x, xs⟩ <;> simp at ha
      · rw [hb, List.drop_left, hbb] at hrb
        simp [rightBound, hwd] at hrb
    | false =>
      simp only [wbGo, hfire, Bool.false_eq_true, if_false]
      have H' : ∀ a b, r = a ++ pat ++ b →
          (a = [] ∧ pyIsWord c = true) ∨
          (∃ a0 c0, a = a0 ++ [c0] ∧ pyIsWord c0 = true) ∨
          (∃ d b0, b = d :: b0 ∧ pyIsWord d = true) := by
        intro a b hab
        rcases H (c :: a) b (by simp [hab]) with ⟨hc, _⟩ | ⟨a0, c0, ha, hw⟩ | hr
        · simp at hc
        · rcases a0 with _ | ⟨x, xs⟩
          · simp only [List.nil_append] at ha
            injection ha with h1 h2
            subst h1
            subst h2
            exact Or.inl ⟨rfl, hw⟩
          · rw [List.cons_append] at ha
            injection ha with h1 h2
            subst h2
            exact Or.inr (Or.inl ⟨xs, c0, rfl, hw⟩)
        · exact Or.inr (Or.inr hr)
      rw [ih (pyIsWord c) H']

lemma shield_to_boundary (pat : List Char) (hne : pat ≠ []) (s : List Char)
    (hs : shieldB pat s = true) :
    ∀ a b, s = a ++ pat ++ b →
      (∃ a0 c, a = a0 ++ [c] ∧ pyIsWord c = true) ∨
      (∃ d b0, b = d :: b0 ∧ pyIsWord d = true) := by
  intro a b hab
  have hplen : 0 < pat.length := List.length_pos.2 hne
  have hlen : a.length < s.length := by
    rw [hab]
    simp only [List.length_append]
    omega
  have hall := (List.all_eq_true.1 hs) a.length (List.mem_range.2 hlen)
  have hocc : occursAt pat s a.length = true := by
    unfold occursAt
    rw [hab, List.append_assoc, List.drop_left]
    exact begins_app _ _
  rw [hocc] at hall
  simp only [Bool.not_true, Bool.false_or, Bool.or_eq_true] at hall
  rcases hall with hleft | hright
  · left
    unfold leftWordAt at hleft
    rw [Bool.and_eq_true] at hleft
    obtain ⟨hne0, hmatch⟩ := hleft
    have hane : a ≠ [] := by
      intro hA
      rw [hA] at hne0
      simp at hne0
    rcases List.eq_nil_or_concat a with rfl | ⟨a0, c, hac⟩
    · exact absurd rfl hane
    · rw [List.concat_eq_append] at hac
      subst hac
      refine ⟨a0, c, rfl, ?_⟩
      have hdrop : s.drop ((a0 ++ [c]).length - 1) = c :: (pat ++ b) := by
        rw [hab]
        simp only [List.length_append, List.length_singleton, Nat.add_sub_cancel]
        rw [List.append_assoc, List.append_assoc]
        rw [show [c] ++ (pat ++ b) = c :: (pat ++ b) from rfl]
        exact List.drop_left a0 _
      rw [hdrop] at hmatch
      exact hmatch
  · right
    unfold rightWordAt at hright
    have hdrop : s.drop (a.length + pat.length) = b := by
      rw [hab, ← List.length_append a pat, List.drop_left]
    rw [hdrop] at hright
    cases b with
    | nil => simp at hright
    | cons d b0 => exact ⟨d, b0, rfl, hright⟩

lemma reSubWB_noop (pat repl s : List Char) (hne : pat ≠ [])
    (hs : shieldB pat s = true) : reSubWB pat repl s = s := by
  unfold reSubWB
  apply wbGo_noop pat repl s false
  intro a b hab
  rcases shield_to_boundary pat hne s hs a b hab with h | h
  · exact Or.inr (Or.inl h)
  · exact Or.inr (Or.inr h)

lemma instPat_ne_nil (n : String) : instPat n ≠ [] := by
  unfold instPat
  intro h
  rcases List.append_eq_nil.1 h with ⟨_, h2⟩
  revert h2
  decide

/-- C9: the Reference Rewriter's search is word-boundary-anchored on both
sides — whenever every occurrence of a replace-list symbol's accessor
pattern in the content is embedded in a longer identifier (a word character
directly before or directly after it), the whole pass returns the content
unchanged.  In particular `Foo` never matches inside `FooBar.Instance` or
`MyFooInstance`. -/
theorem C9_word_boundary_shielded_noop (s : List Char)
    (h : ∀ n ∈ FixInstances.REMOVED_SINGLETONS, shieldB (instPat n) s = true) :
    fixContent s = s := by
  unfold fixContent
  suffices hgen : ∀ l : List String, (∀ n ∈ l, shieldB (instPat n) s = true) →
      l.foldl (fun acc n => reSubWB (instPat n) (instRepl n) acc) s = s by
    exact hgen _ h
  intro l
  induction l with
  | nil => intro _; rfl
  | cons n l ih =>
    intro hl
    simp only [List.foldl_cons]
    rw [reSubWB_noop (instPat n) (instRepl n) s (instPat_ne_nil n)
      (hl n (List.mem_cons_self n l))]
    exact ih fun x hx => hl x (List.mem_cons_of_mem _ hx)

/-- C9 witness: the theorem applied to content where `Minimap` occurs only
inside the longer identifiers `MyMinimapInstance` and `MinimapX.Instance`
(and no other replace-list symbol's accessor occurs at all). -/
theorem C9_witness :
    fixContent (cs "MyMinimapInstance MinimapX.Instance") =
      cs "MyMinimapInstance MinimapX.Instance" :=
  C9_word_boundary_shielded_noop _ (by decide)

end FixInstances

namespace UpdateDebugLogs

lemma lastB_nil (p : Bool) : lastB p [] = p := rfl

lemma lastB_cons (p : Bool) (c : Char) (u : List Char) :
    lastB p (c :: u) = lastB (pyIsSpace c) u := rfl

lemma lastB_all_space (p : Bool) (u : List Char) (hu : ∀ c ∈ u, pyIsSpace c = true)
    (hne : u ≠ []) : lastB p u = true := by
  induction u generalizing p with
  | nil => exact absurd rfl hne
  | cons c u ih =>
    rw [lastB_cons]
    cases u with
    | nil => simpa [lastB] using hu c (List.mem_cons_self c [])
    | cons d u' =>
      exact ih (pyIsSpace c) (fun x hx => hu x (List.mem_cons_of_mem _ hx)) (by simp)

lemma lastB_all_nonspace (u : List Char) (hu : ∀ c ∈ u, pyIsSpace c = false) :
    lastB false u = true → False := by
  induction u with
  | nil => simp [lastB]
  | cons c u ih =>
    rw [lastB_cons, hu c (List.mem_cons_self c u)]
    exact ih fun x hx => hu x (List.mem_cons_of_mem _ hx)

lemma begins_head_ne {hd c : Char} (pt X : List Char) (h : hd ≠ c) :
    begins (hd :: pt) (c :: X) = false := by
  simp [begins, h]

lemma wgo_skip (pat repl : List Char) :
    ∀ (u t : List Char) (p : Bool),
      wgo pat repl (u ++ t) u.length p = wgo pat repl t 0 (lastB p u) := by
  intro u
  induction u with
  | nil => intro t p; rfl
  | cons c u ih =>
    intro t p
    rw [List.cons_append, List.length_cons]
    rw [show wgo pat repl (c :: (u ++ t)) (u.length + 1) p =
      wgo pat repl (u ++ t) u.length (pyIsSpace c) from rfl]
    rw [ih t (pyIsSpace c), lastB_cons]

lemma wgo_walk_ne (hd : Char) (pt repl : List Char) :
    ∀ (u t : List Char) (p : Bool), (∀ c ∈ u, c ≠ hd) →
      wgo (hd :: pt) repl (u ++ t) 0 p = u ++ wgo (hd :: pt) repl t 0 (lastB p u) := by
  intro u
  induction u with
  | nil => intro t p _; rfl
  | cons c u ih =>
    intro t p hu
    have hc : hd ≠ c := fun h => hu c (List.mem_cons_self c u) h.symm
    rw [List.cons_append]
    rw [show wgo (hd :: pt) repl (c :: (u ++ t)) 0 p =
      (if p && begins (hd :: pt) (c :: (u ++ t)) then
        repl ++ wgo (hd :: pt) repl (u ++ t) ((hd :: pt).length - 1) (pyIsSpace c)
      else c :: wgo (hd :: pt) repl (u ++ t) 0 (pyIsSpace c)) from rfl]
    rw [begins_head_ne pt (u ++ t) hc]
    simp only [Bool.and_false, Bool.false_eq_true, if_false]
    rw [ih t (pyIsSpace c) fun x hx => hu x (List.mem_cons_of_mem _ hx), lastB_cons,
      List.cons_append]

lemma wgo_walk_nonspace (pat repl : List Char) :
    ∀ (u t : List Char), (∀ c ∈ u, pyIsSpace c = false) →
      wgo pat repl (u ++ t) 0 false = u ++ wgo pat repl t 0 false := by
  intro u
  induction u with
  | nil => intro t _; rfl
  | cons c u ih =>
    intro t hu
    rw [List.cons_append]
    rw [show wgo pat repl (c :: (u ++ t)) 0 false =
      (if false && begins pat (c :: (u ++ t)) then
        repl ++ wgo pat repl (u ++ t) (pat.length - 1) (pyIsSpace c)
      else c :: wgo pat repl (u ++ t) 0 (pyIsSpace c)) from rfl]
    simp only [Bool.false_and, Bool.false_eq_true, if_false]
    rw [hu c (List.mem_cons_self c u)]
    rw [ih t fun x hx => hu x (List.mem_cons_of_mem _ hx), List.cons_append]

lemma wgo_fire (hd : Char) (pt repl t : List Char) :
    wgo (hd :: pt) repl ((hd :: pt) ++ t) 0 true =
      repl ++ wgo (hd :: pt) repl t 0 (lastB (pyIsSpace hd) pt) := by
  rw [List.cons_append]
  rw [show wgo (hd :: pt) repl (hd :: (pt ++ t)) 0 true =
    (if true && begins (hd :: pt) (hd :: (pt ++ t)) then
      repl ++ wgo (hd :: pt) repl (pt ++ t) ((hd :: pt).length - 1) (pyIsSpace hd)
    else hd :: wgo (hd :: pt) repl (pt ++ t) 0 (pyIsSpace hd)) from rfl]
  rw [show (hd :: (pt ++ t)) = (hd :: pt) ++ t from rfl, begins_app]
  simp only [Bool.true_and, if_true, List.length_cons, Nat.add_sub_cancel]
  rw [wgo_skip]

lemma countOcc_app_no_head (hd : Char) (xt : List Char) :
    ∀ (u t : List Char), (∀ c ∈ u, c ≠ hd) →
      countOcc (hd :: xt) (u ++ t) = countOcc (hd :: xt) t := by
  intro u
  induction u with
  | nil => intro t _; rfl
  | cons c u ih =>
    intro t hu
    have hc : hd ≠ c := fun h => hu c (List.mem_cons_self c u) h.symm
    rw [List.cons_append]
    rw [show countOcc (hd :: xt) (c :: (u ++ t)) =
      (if begins (hd :: xt) (c :: (u ++ t)) then 1 else 0) +
        countOcc (hd :: xt) (u ++ t) from rfl]
    rw [begins_head_ne xt (u ++ t) hc]
    simp only [Bool.false_eq_true, if_false, Nat.zero_add]
    exact ih t fun x hx => hu x (List.mem_cons_of_mem _ hx)

lemma begins_app_cases : ∀ (x q t : List Char), begins x (q ++ t) = true →
    begins x q = true ∨ begins q x = true
  | [], q, t, _ => Or.inl (by simp [begins])
  | a :: as, [], t, _ => Or.inr (by simp [begins])
  | a :: as, b :: bs, t, h => by
    rw [List.cons_append] at h
    simp only [begins, Bool.and_eq_true, decide_eq_true_eq] at h ⊢
    obtain ⟨rfl, h⟩ := h
    rcases begins_app_cases as bs t h with h2 | h2
    · exact Or.inl ⟨rfl, h2⟩
    · exact Or.inr ⟨rfl, h2⟩

lemma begins_of_le : ∀ (p q t : List Char), p.length ≤ q.length →
    begins p (q ++ t) = begins p q
  | [], q, t, _ => by simp [begins]
  | a :: as, [], t, h => by simp at h
  | a :: as, b :: bs, t, h => by
    rw [List.cons_append]
    simp only [begins]
    rw [begins_of_le as bs t (by simpa using h)]

lemma wgo_bw (pat repl : List Char) :
    ∀ (r y : List Char), (∀ c ∈ y, pyIsSpace c = false) →
      begins y (wgo pat repl r 0 false) = true → begins y r = true := by
  intro r
  induction r with
  | nil =>
    intro y hy h
    simpa [wgo] using h
  | cons c r ih =>
    intro y hy h
    rw [show wgo pat repl (c :: r) 0 false =
      (if false && begins pat (c :: r) then
        repl ++ wgo pat repl r (pat.length - 1) (pyIsSpace c)
      else c :: wgo pat repl r 0 (pyIsSpace c)) from rfl] at h
    simp only [Bool.false_and, Bool.false_eq_true, if_false] at h
    cases y with
    | nil => simp [begins]
    | cons d y2 =>
      simp only [begins, Bool.and_eq_true, decide_eq_true_eq] at h ⊢
      obtain ⟨hdc, h⟩ := h
      subst hdc
      have hds := hy d (List.mem_cons_self d y2)
      rw [hds] at h
      exact ⟨rfl, ih y2 (fun x hx => hy x (List.mem_cons_of_mem _ hx)) h⟩

lemma wgo_count (hd : Char) (pt repl xt : List Char)
    (hhd : pyIsSpace hd = false)
    (hrepl : ∀ c ∈ repl, c ≠ hd)
    (hpt : ∀ c ∈ pt, c ≠ hd)
    (hxt : ∀ c ∈ xt, pyIsSpace c = false)
    (hptxt : begins pt xt = false)
    (hxtpt : begins xt pt = false) :
    ∀ (s : List Char) (p : Bool),
      countOcc (hd :: xt) (wgo (hd :: pt) repl s 0 p) = countOcc (hd :: xt) s := by
  have main : ∀ (n : Nat) (s : List Char) (p : Bool), s.length ≤ n →
      countOcc (hd :: xt) (wgo (hd :: pt) repl s 0 p) = countOcc (hd :: xt) s := by
    intro n
    induction n with
    | zero =>
      intro s p hs
      cases s with
      | nil => rfl
      | cons c r => simp at hs
    | succ n ih =>
      intro s p hs
      cases s with
      | nil => rfl
      | cons c r =>
        cases hfire : (p && begins (hd :: pt) (c :: r)) with
        | true =>
          rw [Bool.and_eq_true] at hfire
          obtain ⟨hp, hbeg⟩ := hfire
          obtain ⟨t, ht⟩ := (begins_iff _ _).1 hbeg
          rw [List.cons_append] at ht
          injection ht with hch hrt
          have hch2 : hd = c := hch.symm
          subst hch2
          subst hrt
          subst hp
          rw [show (hd :: (pt ++ t)) = (hd :: pt) ++ t from rfl]
          rw [wgo_fire hd pt repl t]
          rw [countOcc_app_no_head hd xt repl _ hrepl]
          have ht_len : t.length ≤ n := by
            simp only [List.length_cons, List.length_append] at hs
            omega
          rw [ih t (lastB (pyIsSpace hd) pt) ht_len]
          rw [show (hd :: pt) ++ t = hd :: (pt ++ t) from rfl]
          rw [show countOcc (hd :: xt) (hd :: (pt ++ t)) =
            (if begins (hd :: xt) (hd :: (pt ++ t)) then 1 else 0) +
              countOcc (hd :: xt) (pt ++ t) from rfl]
          have hq : begins xt (pt ++ t) = false := by
            cases hq2 : begins xt (pt ++ t) with
            | false => rfl
            | true =>
              rcases begins_app_cases xt pt t hq2 with h2 | h2
              · rw [h2] at hxtpt
                exact absurd hxtpt (by simp)
              · rw [h2] at hptxt
                exact absurd hptxt (by simp)
          have hb : begins (hd :: xt) (hd :: (pt ++ t)) = false := by
            simp [begins, hq]
          rw [hb]
          simp only [Bool.false_eq_true, if_false, Nat.zero_add]
          rw [countOcc_app_no_head hd xt pt t hpt]
        | false =>
          rw [show wgo (hd :: pt) repl (c :: r) 0 p =
            (if p && begins (hd :: pt) (c :: r) then
              repl ++ wgo (hd :: pt) repl r ((hd :: pt).length - 1) (pyIsSpace c)
            else c :: wgo (hd :: pt) repl r 0 (pyIsSpace c)) from rfl]
          rw [hfire]
          simp only [Bool.false_eq_true, if_false]
          have hr_len : r.length ≤ n := by
            simp only [List.length_cons] at hs
            omega
          have htail := ih r (pyIsSpace c) hr_len
          have hheads : begins (hd :: xt) (c :: wgo (hd :: pt) repl r 0 (pyIsSpace c)) =
              begins (hd :: xt) (c :: r) := by
            by_cases hc : hd = c
            · subst hc
              rw [hhd]
              have hiff : begins xt (wgo (hd :: pt) repl r 0 false) = begins xt r := by
                cases hq : begins xt r with
                | true =>
                  obtain ⟨t, rfl⟩ := (begins_iff _ _).1 hq
                  rw [wgo_walk_nonspace (hd :: pt) repl xt t hxt]
                  exact begins_app xt _
                | false =>
                  cases hw : begins xt (wgo (hd :: pt) repl r 0 false) with
                  | false => rfl
                  | true =>
                    have h3 := wgo_bw (hd :: pt) repl r xt hxt hw
                    rw [hq] at h3
                    exact absurd h3 (by simp)
              simp [begins, hiff]
            · rw [begins_head_ne xt _ hc, begins_head_ne xt _ hc]
          rw [show countOcc (hd :: xt) (c :: wgo (hd :: pt) repl r 0 (pyIsSpace c)) =
            (if begins (hd :: xt) (c :: wgo (hd :: pt) repl r 0 (pyIsSpace c)) then 1 else 0) +
              countOcc (hd :: xt) (wgo (hd :: pt) repl r 0 (pyIsSpace c)) from rfl]
          rw [show countOcc (hd :: xt) (c :: r) =
            (if begins (hd :: xt) (c :: r) then 1 else 0) + countOcc (hd :: xt) r from rfl]
          rw [hheads, htail]
  intro s p
  exact main s.length s p (Nat.le_refl _)

lemma ws_ne_D (w : List Char) (hws : ∀ c ∈ w, pyIsSpace c = true) :
    ∀ c ∈ w, c ≠ 'D' := by
  intro c hc h
  subst h
  have h2 := hws 'D' hc
  revert h2
  decide

lemma pass1_fire (w t : List Char) (hw : w ≠ []) (hws : ∀ c ∈ w, pyIsSpace c = true) :
    wgo pat1 repl1 (w ++ (pat1 ++ t)) 0 false = w ++ (repl1 ++ wgo pat1 repl1 t 0 false) := by
  have hp1 : pat1 = 'D' :: cs "ebug.Log(" := rfl
  rw [hp1]
  rw [wgo_walk_ne 'D' (cs "ebug.Log(") repl1 w _ false (ws_ne_D w hws)]
  rw [lastB_all_space false w hws hw]
  rw [wgo_fire 'D' (cs "ebug.Log(") repl1 t]
  rw [show lastB (pyIsSpace 'D') (cs "ebug.Log(") = false from by decide]

lemma pass2_keep (w X : List Char) (hw : w ≠ []) (hws : ∀ c ∈ w, pyIsSpace c = true) :
    wgo pat2 repl2 (w ++ (repl1 ++ X)) 0 false = w ++ (repl1 ++ wgo pat2 repl2 X 0 false) := by
  have hp2 : pat2 = 'D' :: cs "ebug.LogWarning(" := rfl
  rw [hp2]
  rw [wgo_walk_ne 'D' (cs "ebug.LogWarning(") repl2 w _ false (ws_ne_D w hws)]
  rw [lastB_all_space false w hws hw]
  rw [wgo_walk_ne 'D' (cs "ebug.LogWarning(") repl2 repl1 X true (by decide)]
  rw [show lastB true repl1 = false from by decide]

lemma pass1_skip_pat2 (t : List Char) :
    wgo pat1 repl1 (pat2 ++ t) 0 true = pat2 ++ wgo pat1 repl1 t 0 false := by
  have hp1 : pat1 = 'D' :: cs "ebug.Log(" := rfl
  have hp2 : pat2 = 'D' :: cs "ebug.LogWarning(" := rfl
  rw [hp2, List.cons_append]
  rw [show wgo pat1 repl1 ('D' :: (cs "ebug.LogWarning(" ++ t)) 0 true =
    (if true && begins pat1 ('D' :: (cs "ebug.LogWarning(" ++ t)) then
      repl1 ++ wgo pat1 repl1 (cs "ebug.LogWarning(" ++ t) (pat1.length - 1) (pyIsSpace 'D')
    else 'D' :: wgo pat1 repl1 (cs "ebug.LogWarning(" ++ t) 0 (pyIsSpace 'D')) from rfl]
  rw [show ('D' :: (cs "ebug.LogWarning(" ++ t)) = (('D' :: cs "ebug.LogWarning(") ++ t) from rfl]
  rw [begins_of_le pat1 ('D' :: cs "ebug.LogWarning(") t (by decide)]
  rw [show begins pat1 ('D' :: cs "ebug.LogWarning(") = false from by decide]
  simp only [Bool.and_false, Bool.false_eq_true, if_false]
  rw [show (pyIsSpace 'D') = false from by decide]
  rw [hp1]
  rw [wgo_walk_ne 'D' (cs "ebug.Log(") repl1 (cs "ebug.LogWarning(") t false (by decide)]
  rw [show lastB false (cs "ebug.LogWarning(") = false from by decide]
  rw [List.cons_append]

lemma pass2_fire (w t : List Char) (hw : w ≠ []) (hws : ∀ c ∈ w, pyIsSpace c = true) :
    wgo pat2 repl2 (w ++ (pat2 ++ t)) 0 false = w ++ (repl2 ++ wgo pat2 repl2 t 0 false) := by
  have hp2 : pat2 = 'D' :: cs "ebug.LogWarning(" := rfl
  rw [hp2]
  rw [wgo_walk_ne 'D' (cs "ebug.LogWarning(") repl2 w _ false (ws_ne_D w hws)]
  rw [lastB_all_space false w hws hw]
  rw [wgo_fire 'D' (cs "ebug.LogWarning(") repl2 t]
  rw [show lastB (pyIsSpace 'D') (cs "ebug.LogWarning(") = false from by decide]

/-- C3 (amended): the Call Wrapper replaces exactly the occurrences of
`Debug.Log(` / `Debug.LogWarning(` that are directly preceded by at least
one whitespace character, preserving the whitespace run verbatim and
continuing on the rest of the content; an occurrence with no preceding
whitespace is not rewritten (see the counterexample); and `Debug.LogError`
is never altered: the number of its occurrences is preserved on every
input. -/
theorem C3_amended_wrapping_behaviour :
    (∀ w t : List Char, w ≠ [] → (∀ c ∈ w, pyIsSpace c = true) →
        replaceDebugCalls (w ++ (pat1 ++ t)) = w ++ (repl1 ++ replaceDebugCalls t)) ∧
    (∀ w t : List Char, w ≠ [] → (∀ c ∈ w, pyIsSpace c = true) →
        replaceDebugCalls (w ++ (pat2 ++ t)) = w ++ (repl2 ++ replaceDebugCalls t)) ∧
    (∀ s : List Char, countOcc (cs "Debug.LogError") (replaceDebugCalls s) =
        countOcc (cs "Debug.LogError") s) := by
  refine ⟨?_, ?_, ?_⟩
  · intro w t hw hws
    show wgo pat2 repl2 (wgo pat1 repl1 (w ++ (pat1 ++ t)) 0 false) 0 false = _
    rw [pass1_fire w t hw hws]
    rw [pass2_keep w _ hw hws]
    rfl
  · intro w t hw hws
    show wgo pat2 repl2 (wgo pat1 repl1 (w ++ (pat2 ++ t)) 0 false) 0 false = _
    have hp1 : pat1 = 'D' :: cs "ebug.Log(" := rfl
    have e1 : wgo pat1 repl1 (w ++ (pat2 ++ t)) 0 false =
        w ++ (pat2 ++ wgo pat1 repl1 t 0 false) := by
      rw [hp1]
      rw [wgo_walk_ne 'D' (cs "ebug.Log(") repl1 w _ false (ws_ne_D w hws)]
      rw [lastB_all_space false w hws hw]
      rw [← hp1]
      rw [pass1_skip_pat2 t]
    rw [e1]
    rw [pass2_fire w _ hw hws]
    rfl
  · intro s
    show countOcc (cs "Debug.LogError")
      (wgo pat2 repl2 (wgo pat1 repl1 s 0 false) 0 false) = _
    have e1 := wgo_count 'D' (cs "ebug.LogWarning(") repl2 (cs "ebug.LogError")
      (by decide) (by decide) (by decide) (by decide) (by decide) (by decide)
      (wgo pat1 repl1 s 0 false) false
    have e2 := wgo_count 'D' (cs "ebug.Log(") repl1 (cs "ebug.LogError")
      (by decide) (by decide) (by decide) (by decide) (by decide) (by decide) s false
    exact e1.trans e2

/-- C3 witness: the amended theorem applied at a single space of leading
whitespace and empty remainder. -/
theorem C3_amended_witness :
    replaceDebugCalls (cs " " ++ (pat1 ++ [])) = cs " " ++ (repl1 ++ replaceDebugCalls []) :=
  C3_amended_wrapping_behaviour.1 (cs " ") [] (by decide) (by decide)

/-- C3 counterexample: content starting with `Debug.Log(` at position 0 has
no preceding whitespace, and the Call Wrapper leaves it unchanged although
it is an occurrence of the origin-namespace call prefix — refuting the
claim that every occurrence is replaced on any input. -/
theorem C3_counterexample :
    begins pat1 (cs "Debug.Log(x);") = true ∧
    replaceDebugCalls (cs "Debug.Log(x);") = cs "Debug.Log(x);" := by decide

lemma begins_length_le : ∀ p s : List Char, begins p s = true → p.length ≤ s.length := by
  intro p s h
  obtain ⟨t, rfl⟩ := (begins_iff _ _).1 h
  simp

lemma begins_eq_of_ge (p s : List Char) (h : begins p s = true)
    (hl : s.length ≤ p.length) : p = s := by
  obtain ⟨t, rfl⟩ := (begins_iff _ _).1 h
  simp only [List.length_append] at hl
  have : t = [] := List.eq_nil_of_length_eq_zero (by omega)
  simp [this]

lemma begins_cancel : ∀ (q x y : List Char), begins (q ++ x) (q ++ y) = begins x y := by
  intro q
  induction q with
  | nil => intro x y; rfl
  | cons a q ih => intro x y; simp [begins, ih]

lemma begins_app_drop (p q t : List Char) (h1 : begins p (q ++ t) = true)
    (h2 : begins q p = true) : begins (p.drop q.length) t = true := by
  obtain ⟨p2, rfl⟩ := (begins_iff _ _).1 h2
  rw [List.drop_left]
  rw [begins_cancel] at h1
  exact h1

lemma hasSub_mid (p a b : List Char) : hasSub p (a ++ (p ++ b)) = true :=
  (hasSub_iff _ _).2 ⟨a, b, by simp⟩

lemma hasSub_app_right (p a b : List Char) (h : hasSub p a = true) :
    hasSub p (a ++ b) = true := by
  obtain ⟨u, v, rfl⟩ := (hasSub_iff _ _).1 h
  exact (hasSub_iff _ _).2 ⟨u, v ++ b, by simp⟩

lemma hasSub_of_suffix_begins (P X A : List Char) (hs : X <:+ A)
    (hb : begins P X = true) : hasSub P A = true := by
  obtain ⟨u, rfl⟩ := hs
  obtain ⟨v, rfl⟩ := (begins_iff _ _).1 hb
  exact (hasSub_iff _ _).2 ⟨u, v, by simp⟩

lemma count_pos_of_hasSub : ∀ s : List Char, hasSub USING s = true → 1 ≤ countOcc USING s := by
  intro s
  induction s with
  | nil =>
    intro h
    revert h
    decide
  | cons c r ih =>
    intro h
    simp only [hasSub, Bool.or_eq_true] at h
    rw [show countOcc USING (c :: r) =
      (if begins USING (c :: r) then 1 else 0) + countOcc USING r from rfl]
    rcases h with h | h
    · simp [h]
    · have := ih h
      omega

lemma count_zero_no_hasSub (s : List Char) (h : countOcc USING s = 0) :
    hasSub USING s = false := by
  cases hq : hasSub USING s with
  | false => rfl
  | true =>
    have := count_pos_of_hasSub s hq
    omega

lemma count_app_zero_right : ∀ (p a b : List Char), countOcc p (a ++ b) = 0 →
    countOcc p b = 0 := by
  intro p a
  induction a with
  | nil => intro b h; simpa using h
  | cons c a ih =>
    intro b h
    rw [List.cons_append] at h
    rw [show countOcc p (c :: (a ++ b)) =
      (if begins p (c :: (a ++ b)) then 1 else 0) + countOcc p (a ++ b) from rfl] at h
    exact ih b (by omega)

lemma count_walkA (A B ins : List Char)
    (h0 : countOcc USING (A ++ B) = 0)
    (hinslen : USING.length ≤ ins.length)
    (hnospan : ∀ k, 1 ≤ k → k < USING.length → begins (USING.drop k) ins = false) :
    ∀ (n : Nat) (X : List Char), X.length ≤ n → X <:+ A →
      countOcc USING (X ++ (ins ++ B)) = countOcc USING (ins ++ B) := by
  intro n
  induction n with
  | zero =>
    intro X hX _
    have : X = [] := List.eq_nil_of_length_eq_zero (by omega)
    simp [this]
  | succ n ih =>
    intro X hX hsfx
    cases X with
    | nil => simp
    | cons c X2 =>
      have hhead : begins USING ((c :: X2) ++ (ins ++ B)) = false := by
        cases htrue : begins USING ((c :: X2) ++ (ins ++ B)) with
        | false => rfl
        | true =>
          exfalso
          rcases begins_app_cases USING (c :: X2) (ins ++ B) htrue with h | h
          · have hA := hasSub_of_suffix_begins USING (c :: X2) A hsfx h
            have := count_pos_of_hasSub (A ++ B) (hasSub_app_right _ _ _ hA)
            omega
          · rcases Nat.lt_or_ge (c :: X2).length USING.length with hlt | hge
            · have hdrop := begins_app_drop USING (c :: X2) (ins ++ B) htrue h
              rw [begins_of_le _ ins B (by simp; omega)] at hdrop
              rw [hnospan (c :: X2).length (by simp) hlt] at hdrop
              exact absurd hdrop (by simp)
            · have heq : (c :: X2) = USING := by
                have := begins_eq_of_ge (c :: X2) USING h hge
                exact this.symm ▸ rfl
              have hA := hasSub_of_suffix_begins USING (c :: X2) A hsfx
                (by rw [heq]; exact begins_self USING)
              have := count_pos_of_hasSub (A ++ B) (hasSub_app_right _ _ _ hA)
              omega
      rw [List.cons_append]
      rw [show countOcc USING (c :: (X2 ++ (ins ++ B))) =
        (if begins USING (c :: (X2 ++ (ins ++ B))) then 1 else 0) +
          countOcc USING (X2 ++ (ins ++ B)) from rfl]
      rw [show (c :: (X2 ++ (ins ++ B))) = ((c :: X2) ++ (ins ++ B)) from rfl, hhead]
      simp only [Bool.false_eq_true, if_false, Nat.zero_add]
      have hsfx2 : X2 <:+ A := by
        obtain ⟨u, hu⟩ := hsfx
        exact ⟨u ++ [c], by simpa using hu⟩
      exact ih X2 (by simp at hX; omega) hsfx2

lemma count_tailD (B ins : List Char)
    (hdrop1 : ∀ k, 1 ≤ k → k < ins.length → begins USING (ins.drop k) = false)
    (hdrop2 : ∀ k, 1 ≤ k → k < ins.length → begins (ins.drop k) USING = false) :
    ∀ (n : Nat) (Y : List Char) (k : Nat), Y.length ≤ n → 1 ≤ k → Y = ins.drop k →
      countOcc USING (Y ++ B) = countOcc USING B := by
  intro n
  induction n with
  | zero =>
    intro Y k hY _ _
    have : Y = [] := List.eq_nil_of_length_eq_zero (by omega)
    simp [this]
  | succ n ih =>
    intro Y k hY hk hYk
    cases Y with
    | nil => simp
    | cons c Y2 =>
      have hklen : k < ins.length := by
        by_contra hge
        have : ins.drop k = [] := List.drop_eq_nil_of_le (by omega)
        rw [this] at hYk
        simp at hYk
      have hhead : begins USING ((c :: Y2) ++ B) = false := by
        cases htrue : begins USING ((c :: Y2) ++ B) with
        | false => rfl
        | true =>
          exfalso
          rcases begins_app_cases USING (c :: Y2) B htrue with h | h
          · rw [hYk] at h
            rw [hdrop1 k hk hklen] at h
            exact absurd h (by simp)
          · rw [hYk] at h
            rw [hdrop2 k hk hklen] at h
            exact absurd h (by simp)
      rw [List.cons_append]
      rw [show countOcc USING (c :: (Y2 ++ B)) =
        (if begins USING (c :: (Y2 ++ B)) then 1 else 0) +
          countOcc USING (Y2 ++ B) from rfl]
      rw [show (c :: (Y2 ++ B)) = ((c :: Y2) ++ B) from rfl, hhead]
      simp only [Bool.false_eq_true, if_false, Nat.zero_add]
      have hY2 : Y2 = ins.drop (k + 1) := by
        have h1 : ins.drop (k + 1) = (ins.drop k).tail := by
          rw [← List.drop_drop]
          rw [← hYk]
          rfl
        rw [h1, ← hYk, List.tail_cons]
      exact ih Y2 (k + 1) (by simp at hY; omega) (by omega) hY2

lemma count_insert (A B ins : List Char)
    (hPins : begins USING ins = true)
    (hinslen : USING.length ≤ ins.length)
    (hnospan : ∀ k, 1 ≤ k → k < USING.length → begins (USING.drop k) ins = false)
    (hdrop1 : ∀ k, 1 ≤ k → k < ins.length → begins USING (ins.drop k) = false)
    (hdrop2 : ∀ k, 1 ≤ k → k < ins.length → begins (ins.drop k) USING = false)
    (h0 : countOcc USING (A ++ B) = 0) :
    countOcc USING (A ++ (ins ++ B)) = 1 := by
  rw [count_walkA A B ins h0 hinslen hnospan A.length A (Nat.le_refl _) (List.suffix_refl A)]
  have hne : ins ≠ [] := by
    intro h
    rw [h] at hPins
    have := begins_length_le USING [] hPins
    revert this
    decide
  obtain ⟨c, insT, hcons⟩ := List.exists_cons_of_ne_nil hne
  subst hcons
  · have hheadT : begins USING ((c :: insT) ++ B) = true := by
      obtain ⟨z, hz⟩ := (begins_iff _ _).1 hPins
      rw [hz, List.append_assoc]
      exact begins_app USING (z ++ B)
    rw [List.cons_append]
    rw [show countOcc USING (c :: (insT ++ B)) =
      (if begins USING (c :: (insT ++ B)) then 1 else 0) +
        countOcc USING (insT ++ B) from rfl]
    rw [show (c :: (insT ++ B)) = ((c :: insT) ++ B) from rfl, hheadT]
    simp only [if_true]
    rw [count_tailD B (c :: insT) hdrop1 hdrop2 insT.length insT 1 (Nat.le_refl _)
      (Nat.le_refl _) rfl]
    rw [count_app_zero_right USING A B h0]


lemma forall_range_bool {n : Nat} {f : Nat → Bool} (h : (List.range n).all f = true) :
    ∀ k, k < n → f k = true :=
  fun k hk => List.all_eq_true.1 h k (List.mem_range.2 hk)

lemma bound_fact_of_range (n : Nat) (g : Nat → Bool)
    (h : (List.range n).all (fun k => decide (k = 0) || !(g k)) = true) :
    ∀ k, 1 ≤ k → k < n → g k = false := by
  intro k h1 h2
  have hf := forall_range_bool h k h2
  cases hz : decide (k = 0) with
  | true => exact absurd (of_decide_eq_true hz) (by omega)
  | false =>
    rw [hz] at hf
    simp only [Bool.false_or, Bool.not_eq_true'] at hf
    exact hf

lemma addUsing_of_contains (t : List Char) (h : hasSub USING t = true) :
    addUsing t = t := by
  unfold addUsing
  rw [h]
  simp

lemma addUsing_contains (s : List Char) : hasSub USING (addUsing s) = true := by
  unfold addUsing
  by_cases h : hasSub USING s
  · simp [h]
  · simp only [h, Bool.false_eq_true, if_false]
    cases hscan : scanLast s with
    | some e =>
      show hasSub USING (s.take e ++ USING ++ ('\n' :: s.drop e)) = true
      rw [List.append_assoc]
      exact hasSub_mid USING (s.take e) ('\n' :: s.drop e)
    | none =>
      cases hns : firstPos nsFrom s with
      | some p =>
        show hasSub USING (s.take p ++ USING ++ (cs "\n\n" ++ s.drop p)) = true
        rw [List.append_assoc]
        exact hasSub_mid USING (s.take p) (cs "\n\n" ++ s.drop p)
      | none =>
        show hasSub USING (USING ++ cs "\n\n" ++ s) = true
        have := hasSub_mid USING [] (cs "\n\n" ++ s)
        simpa [List.append_assoc] using this

/-- C6 (amended): a second application of the Import Injector is always a
no-op, and on content containing no occurrence of the import literal one
application yields exactly one occurrence; but a file that already contains
the literal — even twice or more — is returned unchanged with its original
occurrence count, so "exactly one occurrence after applying twice" fails on
such inputs (see the counterexample). -/
theorem C6_amended_idempotent_single_occurrence :
    (∀ s : List Char, addUsing (addUsing s) = addUsing s) ∧
    (∀ s : List Char, countOcc USING s = 0 → countOcc USING (addUsing s) = 1) := by
  constructor
  · intro s
    exact addUsing_of_contains _ (addUsing_contains s)
  · intro s h0
    have hno : hasSub USING s = false := count_zero_no_hasSub s h0
    have hnospan1 : ∀ k, 1 ≤ k → k < USING.length →
        begins (USING.drop k) (USING ++ ['\n']) = false :=
      bound_fact_of_range USING.length _ (by decide)
    have hdropa1 : ∀ k, 1 ≤ k → k < (USING ++ ['\n']).length →
        begins USING ((USING ++ ['\n']).drop k) = false :=
      bound_fact_of_range _ _ (by decide)
    have hdropb1 : ∀ k, 1 ≤ k → k < (USING ++ ['\n']).length →
        begins ((USING ++ ['\n']).drop k) USING = false :=
      bound_fact_of_range _ _ (by decide)
    have hnospan2 : ∀ k, 1 ≤ k → k < USING.length →
        begins (USING.drop k) (USING ++ cs "\n\n") = false :=
      bound_fact_of_range USING.length _ (by decide)
    have hdropa2 : ∀ k, 1 ≤ k → k < (USING ++ cs "\n\n").length →
        begins USING ((USING ++ cs "\n\n").drop k) = false :=
      bound_fact_of_range _ _ (by decide)
    have hdropb2 : ∀ k, 1 ≤ k → k < (USING ++ cs "\n\n").length →
        begins ((USING ++ cs "\n\n").drop k) USING = false :=
      bound_fact_of_range _ _ (by decide)
    unfold addUsing
    rw [hno]
    simp only [Bool.false_eq_true, if_false]
    cases hscan : scanLast s with
    | some e =>
      show countOcc USING (s.take e ++ USING ++ ('\n' :: s.drop e)) = 1
      rw [List.append_assoc]
      have hins : (USING ++ ['\n']) ++ s.drop e = USING ++ ('\n' :: s.drop e) := by simp
      rw [← hins]
      exact count_insert (s.take e) (s.drop e) (USING ++ ['\n']) (by decide) (by decide)
        hnospan1 hdropa1 hdropb1 (by rw [List.take_append_drop]; exact h0)
    | none =>
      cases hns : firstPos nsFrom s with
      | some p =>
        show countOcc USING (s.take p ++ USING ++ (cs "\n\n" ++ s.drop p)) = 1
        rw [List.append_assoc]
        have hins : (USING ++ cs "\n\n") ++ s.drop p = USING ++ (cs "\n\n" ++ s.drop p) := by
          simp
        rw [← hins]
        exact count_insert (s.take p) (s.drop p) (USING ++ cs "\n\n") (by decide) (by decide)
          hnospan2 hdropa2 hdropb2 (by rw [List.take_append_drop]; exact h0)
      | none =>
        show countOcc USING (USING ++ cs "\n\n" ++ s) = 1
        have hc := count_insert [] s (USING ++ cs "\n\n") (by decide) (by decide)
          hnospan2 hdropa2 hdropb2 (by simpa using h0)
        simpa [List.append_assoc] using hc

/-- C6 witness: the amended theorem applied to empty content — one
application of the injector yields exactly one occurrence of the literal. -/
theorem C6_amended_witness : countOcc USING (addUsing []) = 1 :=
  C6_amended_idempotent_single_occurrence.2 [] (by decide)

/-- C6 counterexample: content already containing the import literal twice
is returned unchanged by the injector (the containment guard fires), so
applying the injector twice still leaves two occurrences — refuting
"exactly one occurrence, never two, for any content". -/
theorem C6_counterexample :
    countOcc USING (addUsing (addUsing
      (cs "using NeuralBreak.Utils;\nusing NeuralBreak.Utils;\n"))) = 2 := by decide

lemma tw_len_le (p : Char → Bool) : ∀ l : List Char, (l.takeWhile p).length ≤ l.length := by
  intro l
  induction l with
  | nil => simp
  | cons c r ih =>
    rw [List.takeWhile_cons]
    by_cases h : p c
    · simp only [h, if_true, List.length_cons]
      omega
    · simp [h]

lemma lit_none_of_not_begins (p s : List Char) (h : begins p s = false) :
    lit p s = none := by
  cases hl : lit p s with
  | none => rfl
  | some r =>
    have h2 := lit_some p s r hl
    rw [h2, begins_app] at h
    exact absurd h (by simp)

lemma matchUnit_some (s : List Char) (n : Nat) (h : matchUnit s = some n) :
    ∃ s1 d s2,
      lit (cs "using ") s = some s1 ∧
      1 ≤ (s1.takeWhile fun c => decide (c ≠ ';')).length ∧
      s1.drop (s1.takeWhile fun c => decide (c ≠ ';')).length = d :: s2 ∧
      1 ≤ (s2.takeWhile isNl).length ∧
      n = 6 + (s1.takeWhile fun c => decide (c ≠ ';')).length + 1 +
        (s2.takeWhile isNl).length := by
  unfold matchUnit at h
  cases hl : lit (cs "using ") s with
  | none => rw [hl] at h; simp at h
  | some s1 =>
    rw [hl] at h
    simp only at h
    by_cases hb : (s1.takeWhile fun c => decide (c ≠ ';')).length = 0
    · rw [if_pos hb] at h
      simp at h
    · rw [if_neg hb] at h
      cases hd : s1.drop (s1.takeWhile fun c => decide (c ≠ ';')).length with
      | nil => rw [hd] at h; simp at h
      | cons d s2 =>
        rw [hd] at h
        dsimp only at h
        by_cases hdc : d = ';'
        · rw [if_pos hdc] at h
          by_cases hn : (s2.takeWhile isNl).length = 0
          · rw [if_pos hn] at h
            simp at h
          · rw [if_neg hn] at h
            injection h with h
            exact ⟨s1, d, s2, rfl, by omega, hd, by omega, h.symm⟩
        · rw [if_neg hdc] at h
          simp at h

lemma matchUnit_pos (s : List Char) (n : Nat) (h : matchUnit s = some n) : 1 ≤ n := by
  obtain ⟨s1, d, s2, _, _, _, _, hn⟩ := matchUnit_some s n h
  omega

lemma matchUnit_le (s : List Char) (n : Nat) (h : matchUnit s = some n) : n ≤ s.length := by
  obtain ⟨s1, d, s2, hl, hb, hd, hn, heq⟩ := matchUnit_some s n h
  have hs : s = cs "using " ++ s1 := lit_some _ _ _ hl
  have hsplit : (s1.takeWhile fun c => decide (c ≠ ';')) ++
      (s1.dropWhile fun c => decide (c ≠ ';')) = s1 :=
    List.takeWhile_append_dropWhile _ _
  have hdw : s1.drop (s1.takeWhile fun c => decide (c ≠ ';')).length =
      s1.dropWhile fun c => decide (c ≠ ';') := by
    nth_rewrite 2 [← hsplit]
    exact List.drop_left _ _
  have hdd : s1.dropWhile (fun c => decide (c ≠ ';')) = d :: s2 := by
    rw [← hdw, hd]
  have hlen1 : (s1.takeWhile fun c => decide (c ≠ ';')).length + (d :: s2).length =
      s1.length := by
    have h2 := congrArg List.length hsplit
    rw [List.length_append, hdd] at h2
    exact h2
  have hnls : (s2.takeWhile isNl).length ≤ s2.length := tw_len_le isNl s2
  have hslen : s.length = 6 + s1.length := by
    rw [hs, List.length_append]
    rfl
  simp only [List.length_cons] at hlen1
  omega

lemma matchRun_nil : matchRun [] = none := by decide

lemma matchRunF_congr : ∀ (f1 f2 : Nat) (s : List Char), s.length < f1 → s.length < f2 →
    matchRunF f1 s = matchRunF f2 s := by
  intro f1
  induction f1 with
  | zero => intro f2 s h1 _; omega
  | succ f1 ih =>
    intro f2 s h1 h2
    cases f2 with
    | zero => omega
    | succ f2 =>
      rw [show matchRunF (f1 + 1) s = (match matchUnit s with
        | none => none
        | some n => match matchRunF f1 (s.drop n) with
          | some m => some (n + m)
          | none => some n) from rfl]
      rw [show matchRunF (f2 + 1) s = (match matchUnit s with
        | none => none
        | some n => match matchRunF f2 (s.drop n) with
          | some m => some (n + m)
          | none => some n) from rfl]
      cases hu : matchUnit s with
      | none => rfl
      | some n =>
        have hp := matchUnit_pos s n hu
        have hle := matchUnit_le s n hu
        dsimp only
        rw [ih f2 (s.drop n) (by simp only [List.length_drop]; omega)
          (by simp only [List.length_drop]; omega)]

lemma matchRun_eq (s : List Char) : matchRun s =
    (match matchUnit s with
     | none => none
     | some n =>
       match matchRun (s.drop n) with
       | some m => some (n + m)
       | none => some n) := by
  unfold matchRun
  rw [show matchRunF (s.length + 1) s = (match matchUnit s with
    | none => none
    | some n => match matchRunF s.length (s.drop n) with
      | some m => some (n + m)
      | none => some n) from rfl]
  cases hu : matchUnit s with
  | none => rfl
  | some n =>
    have hp := matchUnit_pos s n hu
    have hle := matchUnit_le s n hu
    dsimp only
    rw [matchRunF_congr s.length ((s.drop n).length + 1) (s.drop n)
      (by simp only [List.length_drop]; omega) (by omega)]

lemma matchRun_pos (s : List Char) (n : Nat) (h : matchRun s = some n) : 1 ≤ n := by
  rw [matchRun_eq] at h
  cases hu : matchUnit s with
  | none => rw [hu] at h; simp at h
  | some n0 =>
    rw [hu] at h
    dsimp only at h
    have hp := matchUnit_pos s n0 hu
    cases hr : matchRun (s.drop n0) with
    | none => rw [hr] at h; injection h with h; omega
    | some m => rw [hr] at h; injection h with h; omega

lemma matchRun_le : ∀ (N : Nat) (s : List Char) (n : Nat), s.length ≤ N →
    matchRun s = some n → n ≤ s.length := by
  intro N
  induction N with
  | zero =>
    intro s n hs h
    have : s = [] := List.eq_nil_of_length_eq_zero (by omega)
    rw [this, matchRun_nil] at h
    simp at h
  | succ N ih =>
    intro s n hs h
    rw [matchRun_eq] at h
    cases hu : matchUnit s with
    | none => rw [hu] at h; simp at h
    | some n0 =>
      rw [hu] at h
      dsimp only at h
      have hp := matchUnit_pos s n0 hu
      have hle := matchUnit_le s n0 hu
      cases hr : matchRun (s.drop n0) with
      | none =>
        rw [hr] at h
        injection h with h
        omega
      | some m =>
        rw [hr] at h
        injection h with h
        have hm := ih (s.drop n0) m (by simp only [List.length_drop]; omega) hr
        simp only [List.length_drop] at hm
        omega

lemma matchUnit_none_of_not_begins (s : List Char)
    (h : begins (cs "using ") s = false) : matchUnit s = none := by
  unfold matchUnit
  rw [lit_none_of_not_begins _ _ h]

lemma matchRun_none_of_not_begins (s : List Char)
    (h : begins (cs "using ") s = false) : matchRun s = none := by
  unfold matchRun
  rw [show matchRunF (s.length + 1) s = (match matchUnit s with
    | none => none
    | some n => match matchRunF s.length (s.drop n) with
      | some m => some (n + m)
      | none => some n) from rfl]
  rw [matchUnit_none_of_not_begins s h]

lemma scanLastF_congr : ∀ (f1 f2 pos : Nat) (s : List Char) (acc : Option Nat),
    s.length < f1 → s.length < f2 → scanLastF f1 pos s acc = scanLastF f2 pos s acc := by
  intro f1
  induction f1 with
  | zero => intro f2 pos s acc h1 _; omega
  | succ f1 ih =>
    intro f2 pos s acc h1 h2
    cases f2 with
    | zero => omega
    | succ f2 =>
      cases s with
      | nil => rfl
      | cons c r =>
        rw [show scanLastF (f1 + 1) pos (c :: r) acc = (match matchRun (c :: r) with
          | some n => scanLastF f1 (pos + n) ((c :: r).drop n) (some (pos + n))
          | none => scanLastF f1 (pos + 1) r acc) from rfl]
        rw [show scanLastF (f2 + 1) pos (c :: r) acc = (match matchRun (c :: r) with
          | some n => scanLastF f2 (pos + n) ((c :: r).drop n) (some (pos + n))
          | none => scanLastF f2 (pos + 1) r acc) from rfl]
        cases hm : matchRun (c :: r) with
        | none =>
          exact ih f2 (pos + 1) r acc (by simp at h1; omega) (by simp at h2; omega)
        | some n =>
          have hp := matchRun_pos _ _ hm
          exact ih f2 (pos + n) ((c :: r).drop n) (some (pos + n))
            (by simp only [List.length_drop, List.length_cons] at *; omega)
            (by simp only [List.length_drop, List.length_cons] at *; omega)

lemma SL_nil (pos : Nat) (acc : Option Nat) : SL pos [] acc = acc := rfl

lemma SL_cons (pos : Nat) (c : Char) (r : List Char) (acc : Option Nat) :
    SL pos (c :: r) acc =
      match matchRun (c :: r) with
      | some n => SL (pos + n) ((c :: r).drop n) (some (pos + n))
      | none => SL (pos + 1) r acc := by
  unfold SL
  rw [show scanLastF ((c :: r).length + 1) pos (c :: r) acc =
    (match matchRun (c :: r) with
     | some n => scanLastF (c :: r).length (pos + n) ((c :: r).drop n) (some (pos + n))
     | none => scanLastF (c :: r).length (pos + 1) r acc) from rfl]
  cases hm : matchRun (c :: r) with
  | none =>
    exact scanLastF_congr (c :: r).length (r.length + 1) (pos + 1) r acc (by simp) (by omega)
  | some n =>
    have hp := matchRun_pos _ _ hm
    exact scanLastF_congr (c :: r).length (((c :: r).drop n).length + 1) (pos + n)
      ((c :: r).drop n) (some (pos + n)) (by simp only [List.length_drop]; simp; omega)
      (by omega)

lemma SL_match (s : List Char) (pos : Nat) (acc : Option Nat) (n : Nat)
    (h : matchRun s = some n) :
    SL pos s acc = SL (pos + n) (s.drop n) (some (pos + n)) := by
  cases s with
  | nil => rw [matchRun_nil] at h; simp at h
  | cons c r =>
    rw [SL_cons, h]

lemma SL_no_match : ∀ (Y : List Char) (pos : Nat) (acc : Option Nat),
    (∀ v, v <:+ Y → matchRun v = none) → SL pos Y acc = acc := by
  intro Y
  induction Y with
  | nil => intro pos acc _; rfl
  | cons c r ih =>
    intro pos acc h
    rw [SL_cons, h (c :: r) (List.suffix_refl _)]
    exact ih (pos + 1) acc fun v hv => h v (hv.trans ⟨[c], rfl⟩)

lemma SL_some_isSome : ∀ (N : Nat) (Y : List Char) (pos e : Nat), Y.length ≤ N →
    (SL pos Y (some e)).isSome = true := by
  intro N
  induction N with
  | zero =>
    intro Y pos e hY
    have : Y = [] := List.eq_nil_of_length_eq_zero (by omega)
    rw [this, SL_nil]
    rfl
  | succ N ih =>
    intro Y pos e hY
    cases Y with
    | nil => rfl
    | cons c r =>
      rw [SL_cons]
      cases hm : matchRun (c :: r) with
      | none => exact ih r (pos + 1) e (by simp at hY; omega)
      | some n =>
        have hp := matchRun_pos _ _ hm
        exact ih ((c :: r).drop n) (pos + n) (pos + n)
          (by simp only [List.length_drop]; simp at hY ⊢; omega)

lemma SL_none_no_match : ∀ (N : Nat) (Y : List Char) (pos : Nat), Y.length ≤ N →
    SL pos Y none = none → ∀ v, v <:+ Y → matchRun v = none := by
  intro N
  induction N with
  | zero =>
    intro Y pos hY _ v hv
    have hY0 : Y = [] := List.eq_nil_of_length_eq_zero (by omega)
    rw [hY0] at hv
    rw [List.suffix_nil.1 hv]
    exact matchRun_nil
  | succ N ih =>
    intro Y pos hY h v hv
    cases Y with
    | nil =>
      rw [List.suffix_nil.1 hv]
      exact matchRun_nil
    | cons c r =>
      rw [SL_cons] at h
      cases hm : matchRun (c :: r) with
      | some n =>
        rw [hm] at h
        dsimp only at h
        have h3 := SL_some_isSome ((c :: r).drop n).length ((c :: r).drop n) (pos + n)
          (pos + n) (Nat.le_refl _)
        rw [h] at h3
        simp at h3
      | none =>
        rw [hm] at h
        dsimp only at h
        rcases List.suffix_cons_iff.1 hv with rfl | hv2
        · exact hm
        · exact ih r (pos + 1) (by simp at hY; omega) h v hv2

lemma SL_walk : ∀ (m T : List Char) (pos : Nat) (acc : Option Nat),
    (∀ v, v <:+ m → v ≠ [] → matchRun (v ++ T) = none) →
    SL pos (m ++ T) acc = SL (pos + m.length) T acc := by
  intro m
  induction m with
  | nil => intro T pos acc _; simp
  | cons c m ih =>
    intro T pos acc h
    rw [List.cons_append, SL_cons]
    have h2 : matchRun (c :: (m ++ T)) = none :=
      h (c :: m) (List.suffix_refl _) (by simp)
    rw [h2]
    rw [ih T (pos + 1) acc fun v hv hne => h v (hv.trans ⟨[c], rfl⟩) hne]
    have harith : pos + 1 + m.length = pos + (c :: m).length := by simp; omega
    rw [harith]


/-- C5 (amended): the Import Injector inserts the literal directly after
the end of the LAST run of import-style lines in the file, not the leading
run.  For a file of the shape `r1 ++ m ++ r2 ++ c` — a leading run `r1`, a
gap `m` in which no unit match can start, a second run `r2`, and a tail `c`
containing no match — the literal line is inserted directly after `r2`. -/
theorem C5_amended_insert_after_last_run (r1 m r2 c : List Char)
    (h0 : hasSub USING (r1 ++ (m ++ (r2 ++ c))) = false)
    (h1 : matchRun (r1 ++ (m ++ (r2 ++ c))) = some r1.length)
    (h2 : matchRun (r2 ++ c) = some r2.length)
    (hm : ∀ k, k < m.length → begins (cs "using ") (m.drop k ++ (r2 ++ c)) = false)
    (hc : scanLast c = none) :
    addUsing (r1 ++ (m ++ (r2 ++ c))) =
      (r1 ++ (m ++ r2)) ++ USING ++ ('\n' :: c) := by
  have hm2 : ∀ v, v <:+ m → v ≠ [] → matchRun (v ++ (r2 ++ c)) = none := by
    intro v hv hne
    obtain ⟨u, hu⟩ := hv
    have hvd : m.drop u.length = v := by
      rw [← hu]
      exact List.drop_left u v
    have hk : u.length < m.length := by
      have hvl : 1 ≤ v.length := List.length_pos.2 hne
      have := congrArg List.length hu
      simp only [List.length_append] at this
      omega
    have hb := hm u.length hk
    rw [hvd] at hb
    exact matchRun_none_of_not_begins _ hb
  have hcm : ∀ v, v <:+ c → matchRun v = none :=
    SL_none_no_match c.length c 0 (Nat.le_refl _) hc
  have hscan : scanLast (r1 ++ (m ++ (r2 ++ c))) =
      some (r1.length + m.length + r2.length) := by
    show SL 0 (r1 ++ (m ++ (r2 ++ c))) none = some (r1.length + m.length + r2.length)
    rw [SL_match _ 0 none r1.length h1]
    rw [List.drop_left r1 (m ++ (r2 ++ c))]
    rw [SL_walk m (r2 ++ c) (0 + r1.length) (some (0 + r1.length)) hm2]
    rw [SL_match (r2 ++ c) _ _ r2.length h2]
    rw [List.drop_left r2 c]
    rw [SL_no_match c _ _ hcm]
    simp only [Nat.zero_add]
  unfold addUsing
  rw [h0]
  simp only [Bool.false_eq_true, if_false]
  rw [hscan]
  dsimp only
  have htake : (r1 ++ (m ++ (r2 ++ c))).take (r1.length + m.length + r2.length) =
      r1 ++ (m ++ r2) := by
    rw [show r1 ++ (m ++ (r2 ++ c)) = (r1 ++ (m ++ r2)) ++ c by simp [List.append_assoc]]
    rw [show r1.length + m.length + r2.length = (r1 ++ (m ++ r2)).length by
      simp [List.length_append]; omega]
    exact List.take_left _ _
  have hdrop : (r1 ++ (m ++ (r2 ++ c))).drop (r1.length + m.length + r2.length) = c := by
    rw [show r1 ++ (m ++ (r2 ++ c)) = (r1 ++ (m ++ r2)) ++ c by simp [List.append_assoc]]
    rw [show r1.length + m.length + r2.length = (r1 ++ (m ++ r2)).length by
      simp [List.length_append]; omega]
    exact List.drop_left _ _
  rw [htake, hdrop]

/-- C5 witness: the amended theorem applied to a concrete file with a
leading run, a non-import gap line, a second run, and a plain tail — the
literal is inserted after the second (last) run. -/
theorem C5_amended_witness :
    addUsing (cs "using A;\n" ++ (cs "x\n" ++ (cs "using B;\n" ++ cs "y"))) =
      (cs "using A;\n" ++ (cs "x\n" ++ cs "using B;\n")) ++ USING ++ ('\n' :: cs "y") :=
  C5_amended_insert_after_last_run (cs "using A;\n") (cs "x\n") (cs "using B;\n") (cs "y")
    (by decide) (by decide) (by decide)
    (by
      intro k hk
      rw [show (cs "x\n").length = 2 from rfl] at hk
      interval_cases k <;> decide)
    (by decide)

/-- C5 counterexample: on a file whose import-style lines are not all in
the leading run, the literal is inserted after the LAST run (`using B;`),
not after the leading run (`using A;`) — the output does not begin with
the leading run followed by the literal, refuting the claim. -/
theorem C5_counterexample :
    addUsing (cs "using A;\nx\nusing B;\ny") =
      cs "using A;\nx\nusing B;\nusing NeuralBreak.Utils;\ny" ∧
    begins (cs "using A;\nusing NeuralBreak.Utils;")
      (addUsing (cs "using A;\nx\nusing B;\ny")) = false := by decide

end UpdateDebugLogs
